import Mathlib

/-!
# Verification of the alma-ssz core against its specification

This file gives a shallow embedding, in Lean 4, of the parts of the
`alma-ssz` repository (a differential SSZ fuzzer written in Go) that the
specification's claims are about, and settles each claim.

Embedding conventions:
* Go byte slices become `List Nat` with every element `< 256`; where the Go
  code truncates with a conversion (`byte(..)`, `uint32(..)`) the model takes
  the value `% 2 ^ w` explicitly.
* Go `int` values that can carry the sentinel `-1` become `Int`.
* Fallible Go functions (returning `error`) become `Except String _`.
* Process-global state (the `math/rand` source consumed by the mutator)
  becomes an explicit state parameter that is threaded through.

The embedded components, in order:
1. the bucketed input model (`spec/partitions.go`),
2. the reference codec's bitlist validation (`internal/sszref/encode.go`),
3. the `AggregationBitsContainer` codec (`schemas/bitlist.go`, on top of
   the fastssz helpers it calls),
4. the in-process differential oracle (`fuzzer/in_process_fuzzer.go`),
5. the byte-level mutator (`rl/mutation.go`),
6. Merkleization (`internal/sszref/encode.go`),
7. the reflection-driven reference encoder (`internal/sszref/encode.go`).
-/

namespace AlmaSSZ

/-! ## Little-endian helpers

`encoding/binary.LittleEndian.PutUintN` and `ReadOffset` counterparts. -/

/-- Little-endian byte encoding of `n` on `w` bytes
(the model of `binary.LittleEndian.PutUint16/32/64` after the Go integer
conversion has already reduced `n` modulo `2 ^ (8 * w)`). -/
def leBytes : Nat → Nat → List Nat
  | 0, _ => []
  | w + 1, n => (n % 256) :: leBytes w (n / 256)

/-- Little-endian read of a byte string (model of
`binary.LittleEndian.Uint32` on the first bytes of a buffer). -/
def leDecode : List Nat → Nat
  | [] => 0
  | b :: bs => b % 256 + 256 * leDecode bs

theorem leBytes_length (w n : Nat) : (leBytes w n).length = w := by
  induction w generalizing n with
  | zero => rfl
  | succ w ih => simp [leBytes, ih]

theorem leDecode_leBytes (w n : Nat) : leDecode (leBytes w n) = n % 2 ^ (8 * w) := by
  induction w generalizing n with
  | zero => simp [leBytes, leDecode, Nat.mod_one]
  | succ w ih =>
      simp only [leBytes, leDecode, ih]
      have h1 : (2 : Nat) ^ (8 * (w + 1)) = 256 * 2 ^ (8 * w) := by ring
      rw [h1, Nat.mod_mul]
      omega

/-! ## Bucketed input model (`domains` package and `spec/partitions.go`) -/

/-- Model of `domains.Range`: inclusive numeric bounds of a bucket
(`Min`, `Max` are Go `uint64`). -/
structure Range where
  min : Nat
  max : Nat
deriving DecidableEq, Repr

/-- Model of `domains.Bucket`. -/
structure Bucket where
  id : String
  description : String
  range : Range
  tag : String
deriving DecidableEq, Repr

/-- One iteration step of the `for k := 1; k < bitSize; k++` loop of
`GenerateUintBuckets` (src/spec/partitions.go).  `rem` counts the remaining
iterations (`bitSize - k`), `m` is `currentMin`.  Both uint64 computations
wrap: Go's `(uint64(1) << (k+1)) - 1` is modelled as
`(2 ^ (k+1) - 1) % 2 ^ 64`, and `currentMin = upperBound + 1` as
`(ub + 1) % 2 ^ 64` — at `k = 63` with `upperBound = 2^64 - 1` the new
`currentMin` wraps to `0`.  Returns the buckets the loop appended plus the
final `currentMin`. -/
def uintBucketLoop (maxVal : Nat) : Nat → Nat → Nat → List Bucket × Nat
  | _, 0, m => ([], m)
  | k, rem + 1, m =>
    let ub0 := (2 ^ (k + 1) - 1) % 2 ^ 64
    let ub := if ub0 > maxVal then maxVal else ub0
    if m ≤ ub then
      let b : Bucket :=
        { id := s!"{m}..{ub}", description := s!"Range {m} to {ub}",
          range := ⟨m, ub⟩, tag := "power_of_2_range" }
      let m' := (ub + 1) % 2 ^ 64
      if m' > maxVal then ([b], m')
      else
        let r := uintBucketLoop maxVal (k + 1) rem m'
        (b :: r.1, r.2)
    else
      if m > maxVal then ([], m)
      else
        let r := uintBucketLoop maxVal (k + 1) rem m
        (r.1, r.2)

/-- Model of `spec.GenerateUintBuckets` (src/spec/partitions.go): the bucket
partition generated for an unsigned integer of `bitSize` bits. -/
def GenerateUintBuckets (bitSize : Nat) : List Bucket :=
  let maxVal := if bitSize < 64 then 2 ^ bitSize - 1 else 2 ^ 64 - 1
  let b0 : List Bucket :=
    [{ id := "Zero", description := "Value is 0", range := ⟨0, 0⟩, tag := "boundary" }]
  let s1 : List Bucket × Nat :=
    if 1 ≤ maxVal then
      (b0 ++ [{ id := "One", description := "Value is 1", range := ⟨1, 1⟩, tag := "boundary" }], 2)
    else (b0, 1)
  let s2 := uintBucketLoop maxVal 1 (bitSize - 1) s1.2
  let b2 := s1.1 ++ s2.1
  let b3 :=
    if s2.2 ≤ maxVal then
      b2 ++ [{ id := s!"{s2.2}..{maxVal}",
               description := s!"Remaining range {s2.2} to {maxVal}",
               range := ⟨s2.2, maxVal⟩, tag := "remaining_range" }]
    else b2
  b3.filter (fun b => decide (b.range.min ≤ b.range.max))

/-- The range list `GenerateUintBuckets` actually produces for a width
`w ≥ 1`: the singletons `{0}` and `{1}` followed by the power-of-two
aligned slices `[2^(k+1), min (2^(k+2)-1) (2^w-1)]` for `k < w - 1`. -/
def expectedUintRanges (w : Nat) : List Range :=
  ⟨0, 0⟩ :: ⟨1, 1⟩ ::
    (List.range (w - 1)).map
      (fun k => ⟨2 ^ (k + 1), min (2 ^ (k + 2) - 1) (2 ^ w - 1)⟩)

/-- `coversExactly lo hi bs` holds when `bs` is a gapless, ordered chain of
non-empty inclusive ranges that starts at `lo` and ends at `hi`. -/
def coversExactly (lo hi : Nat) : List Bucket → Bool
  | [] => false
  | [b] => b.range.min == lo && b.range.max == hi && decide (lo ≤ hi)
  | b :: b' :: bs =>
      b.range.min == lo && decide (b.range.min ≤ b.range.max) &&
        coversExactly (b.range.max + 1) hi (b' :: bs)

/-- `n` lies in the (inclusive) range of bucket `b`. -/
def inBucket (b : Bucket) (n : Nat) : Prop :=
  b.range.min ≤ n ∧ n ≤ b.range.max

instance (b : Bucket) (n : Nat) : Decidable (inBucket b n) :=
  inferInstanceAs (Decidable (b.range.min ≤ n ∧ n ≤ b.range.max))

theorem coversExactly_props (bs : List Bucket) :
    ∀ lo hi, coversExactly lo hi bs = true →
      (∀ b ∈ bs, b.range.min ≤ b.range.max) ∧
      List.Pairwise (fun a b => a.range.max < b.range.min) bs ∧
      (∀ n, (∃ b ∈ bs, inBucket b n) ↔ lo ≤ n ∧ n ≤ hi) := by
  induction bs with
  | nil => intro lo hi h; simp [coversExactly] at h
  | cons b bs ih =>
      intro lo hi h
      cases bs with
      | nil =>
          simp only [coversExactly, Bool.and_eq_true, beq_iff_eq,
            decide_eq_true_eq] at h
          obtain ⟨⟨hmin, hmax⟩, hle⟩ := h
          refine ⟨?_, ?_, ?_⟩
          · intro c hc; simp at hc; subst hc; omega
          · simp
          · intro n
            simp only [List.mem_singleton, inBucket]
            constructor
            · rintro ⟨c, rfl, h1, h2⟩; omega
            · intro hn; exact ⟨b, rfl, by omega⟩
      | cons b' bs' =>
          simp only [coversExactly, Bool.and_eq_true, beq_iff_eq,
            decide_eq_true_eq] at h
          obtain ⟨⟨hmin, hle⟩, hrest⟩ := h
          obtain ⟨h1, h2, h3⟩ := ih (b.range.max + 1) hi hrest
          have hbound : ∀ c ∈ b' :: bs', b.range.max < c.range.min := by
            intro c hc
            -- every element of the tail lies in [max+1, hi]
            have := (h3 c.range.min).mp ⟨c, hc, le_refl _, (h1 c hc)⟩
            omega
          refine ⟨?_, ?_, ?_⟩
          · intro c hc
            rcases List.mem_cons.mp hc with rfl | hc'
            · exact hle
            · exact h1 c hc'
          · exact List.pairwise_cons.mpr ⟨hbound, h2⟩
          · -- the tail is non-empty, so its coverage gives `b.range.max < hi`
            have hmaxhi : b.range.max + 1 ≤ hi := by
              have hmem : b' ∈ b' :: bs' := List.mem_cons_self _ _
              have := (h3 b'.range.min).mp ⟨b', hmem, le_refl _, h1 b' hmem⟩
              omega
            intro n
            constructor
            · rintro ⟨c, hc, hcn⟩
              rcases List.mem_cons.mp hc with rfl | hc'
              · obtain ⟨hA, hB⟩ := hcn
                omega
              · have := (h3 n).mp ⟨c, hc', hcn⟩
                omega
            · intro hn
              by_cases hcase : n ≤ b.range.max
              · exact ⟨b, List.mem_cons_self _ _, by constructor <;> omega⟩
              · obtain ⟨c, hc, hcn⟩ := (h3 n).mpr ⟨by omega, hn.2⟩
                exact ⟨c, List.mem_cons_of_mem _ hc, hcn⟩

theorem uintBuckets_range_check :
    ((List.range 64).all fun j =>
      (GenerateUintBuckets (j + 1)).map Bucket.range ==
        (if j + 1 = 64 then expectedUintRanges 64 ++ [⟨0, 2 ^ 64 - 1⟩]
         else expectedUintRanges (j + 1))) = true := by
  decide

theorem uintBuckets_covers_check :
    ((List.range 63).all fun j =>
      coversExactly 0 (2 ^ (j + 1) - 1) (GenerateUintBuckets (j + 1))) = true := by
  decide

theorem uintBuckets_ranges (w : Nat) (h1 : 1 ≤ w) (h2 : w ≤ 63) :
    (GenerateUintBuckets w).map Bucket.range = expectedUintRanges w := by
  have hj : w - 1 < 64 := by omega
  have := List.all_eq_true.mp uintBuckets_range_check (w - 1) (List.mem_range.mpr hj)
  have hw : w - 1 + 1 = w := by omega
  rw [hw] at this
  rw [if_neg (by omega)] at this
  exact eq_of_beq this

/-- At width 64 the uint64 wrap of `currentMin` makes the code append the
extra remaining-range bucket `[0, 2^64 - 1]` after the power-of-two
slices. -/
theorem uintBuckets_ranges64 :
    (GenerateUintBuckets 64).map Bucket.range =
      expectedUintRanges 64 ++ [⟨0, 2 ^ 64 - 1⟩] := by
  have := List.all_eq_true.mp uintBuckets_range_check 63 (List.mem_range.mpr (by omega))
  rw [show (63 : Nat) + 1 = 64 from rfl, if_pos rfl] at this
  exact eq_of_beq this

theorem uintBuckets_covers (w : Nat) (h1 : 1 ≤ w) (h2 : w ≤ 63) :
    coversExactly 0 (2 ^ w - 1) (GenerateUintBuckets w) = true := by
  have hj : w - 1 < 63 := by omega
  have := List.all_eq_true.mp uintBuckets_covers_check (w - 1) (List.mem_range.mpr hj)
  have hw : w - 1 + 1 = w := by omega
  rw [hw] at this
  exact this

/-- C7 counterexample: for width 8 the generator returns 9 buckets, not the
10 buckets (`{0}`, `{1}`, eight equal-width slices) the claim demands. -/
theorem generateUintBuckets_width8_not_ten_buckets :
    ¬ ((GenerateUintBuckets 8).length = 10) := by
  decide

/-- C7 (amended): for every bit width `w ∈ [1, 63]`, `GenerateUintBuckets`
returns exactly `w + 1` buckets: the singleton `{0}`, the singleton `{1}`,
and, for each `k < w - 1`, the power-of-two aligned slice
`[2^(k+1), min (2^(k+2) - 1) (2^w - 1)]` — not eight equal-width slices;
at width 64 the uint64 wrap of `currentMin` additionally appends the
remaining-range bucket `[0, 2^64 - 1]`, for 66 buckets in total. -/
theorem generateUintBuckets_powerOfTwoSlices (w : Nat) (h1 : 1 ≤ w) (h2 : w ≤ 64) :
    (GenerateUintBuckets w).map Bucket.range =
      (if w = 64 then expectedUintRanges 64 ++ [⟨0, 2 ^ 64 - 1⟩]
       else expectedUintRanges w) ∧
    (GenerateUintBuckets w).length = (if w = 64 then 66 else w + 1) := by
  by_cases h64 : w = 64
  · subst h64
    rw [if_pos rfl, if_pos rfl]
    refine ⟨uintBuckets_ranges64, ?_⟩
    decide
  · rw [if_neg h64, if_neg h64]
    have hmap := uintBuckets_ranges w h1 (by omega)
    refine ⟨hmap, ?_⟩
    have hlen : ((GenerateUintBuckets w).map Bucket.range).length =
        (GenerateUintBuckets w).length :=
      List.length_map _ _
    rw [hmap] at hlen
    simp only [expectedUintRanges, List.length_cons, List.length_map,
      List.length_range] at hlen
    omega

/-- Witness for C7's amended theorem at width 8. -/
theorem generateUintBuckets_powerOfTwoSlices_witness :
    1 ≤ 8 ∧ 8 ≤ 64 ∧
      ((GenerateUintBuckets 8).map Bucket.range =
          (if 8 = 64 then expectedUintRanges 64 ++ [⟨0, 2 ^ 64 - 1⟩]
           else expectedUintRanges 8) ∧
        (GenerateUintBuckets 8).length = (if 8 = 64 then 66 else 8 + 1)) :=
  ⟨by decide, by decide, generateUintBuckets_powerOfTwoSlices 8 (by decide) (by decide)⟩

/-- For widths in `[1, 63]` — where `currentMin = upperBound + 1` never
wraps — the generated buckets are non-empty intervals, pairwise disjoint,
and their union is exactly `[0, 2^w - 1]`. -/
theorem generateUintBuckets_partition (w : Nat) (h1 : 1 ≤ w) (h2 : w ≤ 63) :
    (∀ b ∈ GenerateUintBuckets w, b.range.min ≤ b.range.max) ∧
    List.Pairwise (fun a b => ∀ n, ¬(inBucket a n ∧ inBucket b n)) (GenerateUintBuckets w) ∧
    (∀ n, (∃ b ∈ GenerateUintBuckets w, inBucket b n) ↔ n ≤ 2 ^ w - 1) := by
  obtain ⟨hne, hpw, hcov⟩ :=
    coversExactly_props (GenerateUintBuckets w) 0 (2 ^ w - 1) (uintBuckets_covers w h1 h2)
  refine ⟨hne, ?_, ?_⟩
  · refine hpw.imp ?_
    intro a b hab n hn
    obtain ⟨⟨_, h1n⟩, h2n, _⟩ := hn
    omega
  · intro n
    rw [hcov n]
    omega

/-- C10: at width 64 the buckets are *not* pairwise disjoint: the uint64
wrap of `currentMin = upperBound + 1` (to 0, after the `[2^63, 2^64-1]`
slice) makes the code append a final remaining-range bucket `[0, 2^64-1]`
that overlaps every other bucket — 66 buckets in total, contradicting the
function's own doc comment ("mutually exclusive buckets") and the claimed
invariant. -/
theorem generateUintBuckets_width64_not_disjoint :
    (GenerateUintBuckets 64).length = 66 ∧
    ((GenerateUintBuckets 64).map Bucket.range).head? = some ⟨0, 0⟩ ∧
    ((GenerateUintBuckets 64).map Bucket.range).getLast? = some ⟨0, 2 ^ 64 - 1⟩ ∧
    ¬ List.Pairwise (fun a b => ∀ n, ¬(inBucket a n ∧ inBucket b n))
      (GenerateUintBuckets 64) := by
  refine ⟨by decide, by decide, by decide, ?_⟩
  intro hpw
  have hp := List.pairwise_iff_get.mp hpw ⟨0, by decide⟩ ⟨65, by decide⟩ (by decide)
  exact hp 0 ⟨by decide, by decide⟩

/-! ## Reference-codec bitlist validation (`internal/sszref/encode.go`) -/

/-- Model of Go `math/bits.Len8`: the number of bits required to represent
a byte value (`bits.Len8` is a lookup table; the ladder below reproduces
it), `0` for `0`. -/
def len8 (n : Nat) : Nat :=
  let m := n % 256
  if m ≥ 128 then 8 else if m ≥ 64 then 7 else if m ≥ 32 then 6
  else if m ≥ 16 then 5 else if m ≥ 8 then 4 else if m ≥ 4 then 3
  else if m ≥ 2 then 2 else if m ≥ 1 then 1 else 0

/-- Model of `sszref.validateBitlist` (src/internal/sszref/encode.go).
`maxBits` is a Go `int`, so it is modelled as `Int` (the parsed `ssz-max`
tag uses `-1` as the "absent" sentinel). -/
def validateBitlist (buf : List Nat) (maxBits : Int) : Except String Unit :=
  if buf.length = 0 then .error "sszref: bitlist empty"
  else
    let last := buf.getLastD 0
    if last = 0 then .error "sszref: bitlist missing length bit"
    else if maxBits ≤ 0 then .ok ()
    else
      let maxBytes := maxBits.toNat / 8 + 1
      if buf.length > maxBytes then .error "sszref: bitlist length exceeds max"
      else
        let msb := len8 last
        if msb = 0 then .error "sszref: bitlist missing length bit"
        else
          let numBits := 8 * (buf.length - 1) + msb - 1
          if numBits > maxBits.toNat then .error "sszref: bitlist bits exceeds max"
          else .ok ()

/-- C4: with a declared maximum of 0 bits, `validateBitlist` accepts the
single byte `0x02` (and, for example, the two-byte buffer `0xAB 0xFF`),
because the `maxBits <= 0` guard returns success for any non-empty buffer
whose last byte is non-zero.  The claim (spec B1) says only `0x01` may be
accepted. -/
theorem validateBitlist_maxZero_accepts_noncanonical :
    validateBitlist [2] 0 = .ok () ∧
    validateBitlist [0xAB, 0xFF] 0 = .ok () ∧
    validateBitlist [1] 0 = .ok () ∧
    validateBitlist [] 0 = .error "sszref: bitlist empty" ∧
    validateBitlist [2, 0] 0 = .error "sszref: bitlist missing length bit" :=
  ⟨rfl, rfl, rfl, rfl, rfl⟩

/-! ## `AggregationBitsContainer` codec (`schemas/bitlist.go`)

The container methods call helpers of the external `fastssz` library
(`ssz.WriteOffset`, `ssz.ReadOffset`, `ssz.UnmarshalBitList`), whose source
is not part of this repository; those helpers are modelled from the spec. -/

/-- Modelled from the spec: fastssz `ssz.WriteOffset` appends a "4-byte
little-endian unsigned integer" offset word (spec glossary, I5). -/
def writeOffset (dst : List Nat) (off : Nat) : List Nat :=
  dst ++ leBytes 4 (off % 2 ^ 32)

/-- Modelled from the spec: fastssz `ssz.ReadOffset` reads the 4-byte
little-endian offset word at the head of the buffer. -/
def readOffset (buf : List Nat) : Nat :=
  leDecode (buf.take 4)

/-- Modelled from the spec: fastssz bitlist validation, per invariant I4 —
a valid encoding is non-empty, its last byte is non-zero (the sentinel bit
is the most significant set bit of the last byte), the byte length is at
most `bitLimit/8 + 1`, and the total bit length `8*(len-1) + msb - 1` is at
most `bitLimit`. -/
def fastValidateBitlist (buf : List Nat) (bitLimit : Nat) : Bool :=
  decide (buf.length ≤ bitLimit / 8 + 1) &&
    decide (buf.length ≠ 0) &&
    decide (buf.getLastD 0 % 256 ≠ 0) &&
    decide (8 * (buf.length - 1) + len8 (buf.getLastD 0) - 1 ≤ bitLimit)

/-- Modelled from the spec: fastssz `ssz.UnmarshalBitList` validates `src`
against `bitLimit` (I4) and on success appends its bytes to `dst`. -/
def fastUnmarshalBitList (dst src : List Nat) (bitLimit : Nat) : Except String (List Nat) :=
  if fastValidateBitlist src bitLimit then .ok (dst ++ src)
  else .error "ssz: invalid bitlist"

/-- The declared bound of the `AggregationBits` field
(`ssz-max:"2048"`, `const aggregationBitsMax = 2048`). -/
def aggregationBitsMax : Nat := 2048

/-- Model of `AggregationBitsContainer.MarshalSSZ` (src/schemas/bitlist.go):
the container value is its single `AggregationBits` byte-slice field. -/
def marshalAggregationBits (aggregationBits : List Nat) : List Nat :=
  let bits := if aggregationBits.isEmpty then [1] else aggregationBits
  writeOffset [] 4 ++ bits

/-- Model of `AggregationBitsContainer.UnmarshalSSZ` (src/schemas/bitlist.go):
on success returns the decoded `AggregationBits` field. -/
def unmarshalAggregationBits (buf : List Nat) : Except String (List Nat) :=
  if buf.length < 4 then .error "ssz: ErrSize"
  else
    let o0 := readOffset buf
    if o0 ≠ 4 ∨ o0 > buf.length then .error "ssz: ErrOffset"
    else fastUnmarshalBitList [] (buf.drop o0) aggregationBitsMax

/-- A typed value of the `AggregationBitsContainer` schema is valid when its
bitlist field is either empty (the Go zero value) or a well-formed
`Bitlist(2048)` encoding per I4. -/
def validAggregationBitsValue (bits : List Nat) : Bool :=
  bits.isEmpty || fastValidateBitlist bits aggregationBitsMax

/-- C1 counterexample: the valid value whose bitlist field is the empty
slice does not round-trip — it encodes to `04 00 00 00 01` and decodes back
to the one-byte field `[0x01]`, not to the empty slice. -/
theorem aggregationBits_empty_roundtrip_counterexample :
    validAggregationBitsValue [] = true ∧
    marshalAggregationBits [] = [4, 0, 0, 0, 1] ∧
    unmarshalAggregationBits (marshalAggregationBits []) = .ok [1] ∧
    ¬ (unmarshalAggregationBits (marshalAggregationBits []) = .ok ([] : List Nat)) := by
  refine ⟨rfl, rfl, rfl, ?_⟩
  intro h
  have h2 : (Except.ok [1] : Except String (List Nat)) = .ok [] := by
    rw [← h]
    rfl
  injection h2 with h3
  exact absurd h3 (by simp)

/-- C1 (amended): decoding the encoding of a valid container value returns
the value itself whenever the bitlist field is non-empty; the empty-slice
value instead decodes to `[0x01]`, the canonical empty bitlist. -/
theorem aggregationBits_roundtrip (bits : List Nat)
    (hv : fastValidateBitlist bits aggregationBitsMax = true) :
    unmarshalAggregationBits (marshalAggregationBits bits) = .ok bits ∧
    unmarshalAggregationBits (marshalAggregationBits []) = .ok [1] := by
  have hne : bits ≠ [] := by
    intro h
    subst h
    simp [fastValidateBitlist] at hv
  have hempty : bits.isEmpty = false := by
    cases bits with
    | nil => exact absurd rfl hne
    | cons a l => rfl
  refine ⟨?_, rfl⟩
  have hmar : marshalAggregationBits bits = [4, 0, 0, 0] ++ bits := by
    simp [marshalAggregationBits, hempty, writeOffset, leBytes]
  rw [hmar]
  have hlen : ([4, 0, 0, 0] ++ bits).length = 4 + bits.length := by
    simp
    omega
  have hread : readOffset ([4, 0, 0, 0] ++ bits) = 4 := by
    have htake : ([4, 0, 0, 0] ++ bits).take 4 = [4, 0, 0, 0] :=
      List.take_left' rfl
    simp [readOffset, htake, leDecode]
  have hdrop : ([4, 0, 0, 0] ++ bits).drop 4 = bits :=
    List.drop_left' rfl
  simp only [unmarshalAggregationBits, hread, hlen, hdrop]
  rw [if_neg (by omega)]
  rw [if_neg (by push_neg; exact ⟨rfl, by omega⟩)]
  simp [fastUnmarshalBitList, hv]

/-- Witness for C1's amended theorem at the one-byte bitlist `[0x01]`
(the canonical empty bitlist, which is valid and non-empty as a buffer). -/
theorem aggregationBits_roundtrip_witness :
    fastValidateBitlist [1] aggregationBitsMax = true ∧
      (unmarshalAggregationBits (marshalAggregationBits [1]) = .ok [1] ∧
        unmarshalAggregationBits (marshalAggregationBits []) = .ok [1]) :=
  ⟨by decide, aggregationBits_roundtrip [1] (by decide)⟩

/-! ## In-process differential oracle (`fuzzer/in_process_fuzzer.go`)

`InProcessFuzzer.Execute` drives an opaque SUT (the generated fastssz
codec of the target schema) through decode / re-encode / re-decode / hash
steps.  Each call into the SUT is modelled by its observable outcome; the
fuzzer's own control flow, signature bookkeeping, and coverage update are
translated from the source.  Hash roots (`[32]byte`, only ever compared
with `bytes.Equal`) are modelled as opaque `Nat` digests. -/

/-- Outcome of one recovered call into the SUT: a panic, an error return,
or a successful result. -/
inductive CallOutcome (α : Type) where
  | panic : CallOutcome α
  | err : CallOutcome α
  | ok (val : α) : CallOutcome α
deriving DecidableEq, Repr

/-- Model of `feedback.RuntimeSignature` (src/feedback/types.go).
`bugKinds` models the `BugKinds` map (a nil/empty map reads as 0). -/
structure RuntimeSignature where
  roundtripSuccessCount : Nat
  nonBugErrorCount : Nat
  bugFoundCount : Nat
  bugKinds : String → Nat

/-- Model of `feedback.NewRuntimeSignature` (and of the zero value, whose
nil map also reads as all zero). -/
def newRuntimeSignature : RuntimeSignature :=
  ⟨0, 0, 0, fun _ => 0⟩

/-- `signature.BugKinds[k]++`. -/
def RuntimeSignature.bump (s : RuntimeSignature) (k : String) : RuntimeSignature :=
  { s with bugKinds := fun s' => if s' = k then s.bugKinds s' + 1 else s.bugKinds s' }

/-- `signature.BugFoundCount = 1`. -/
def RuntimeSignature.withBugFound (s : RuntimeSignature) : RuntimeSignature :=
  { s with bugFoundCount := 1 }

/-- The observable behavior of the SUT during one `Execute` call: the
outcome of every SUT method `Execute` may invoke, plus the trace snapshot.
Fields mirror the call sites in src/fuzzer/in_process_fuzzer.go, lines
138–314, in order. -/
structure SutRun where
  /-- `target.(ssz.Unmarshaler)` succeeds. -/
  isUnmarshaler : Bool
  /-- `target.(ssz.Marshaler)` succeeds. -/
  isMarshaler : Bool
  /-- the recovered `UnmarshalSSZ(sszBytes)` call panics. -/
  unmarshalPanics : Bool
  /-- `UnmarshalSSZ(sszBytes)` returns a non-nil error (when it does not panic). -/
  unmarshalErrs : Bool
  /-- `safeMarshal(marshaler)`: the re-encoded bytes `B'`. -/
  marshal : CallOutcome (List Nat)
  /-- `remarshaledTarget.UnmarshalSSZ(reencodedBytes)` returns an error. -/
  remarshalErrs : Bool
  /-- `safeHashRoot` on the re-decoded target. -/
  reencodedHash : CallOutcome Nat
  /-- `target.(Canonicalizer)` succeeds. -/
  hasCanonicalizer : Bool
  /-- `canonicalizer.Canonicalize()` returns an error. -/
  canonicalizeErrs : Bool
  /-- `safeHashRoot` on the canonicalised target. -/
  canonicalHash : CallOutcome Nat
  /-- `safeHashRoot` on the originally decoded target (no-Canonicalizer path). -/
  originalHash : CallOutcome Nat
  /-- `detectDirtyPadding(targetVal.Elem())` on the decoded target. -/
  dirtyPadding : Bool
  /-- CIDs captured by `tracer.Snapshot()`. -/
  rawTrace : List Nat
deriving Repr

/-- Tail of the hash-comparison logic of `Execute` (lines 264–291): compare
the two roots first, then the raw bytes.  Returns
(signature, bugTriggered, fell through to the coverage update). -/
def classifyHashes (input reenc : List Nat) (origHash reHash : Nat)
    (dirty : Bool) : RuntimeSignature × Bool × Bool :=
  if origHash ≠ reHash then
    (((newRuntimeSignature.bump
        (if dirty then "BitvectorDirtyPadding" else "SemanticMismatch"))).withBugFound, true, false)
  else if input ≠ reenc then
    (((newRuntimeSignature.bump
        (if dirty then "BitvectorDirtyPadding" else "RoundTripMismatch"))).withBugFound, true, true)
  else
    ({ newRuntimeSignature with roundtripSuccessCount := 1 }, false, true)

/-- The step-4 classification of `Execute` after a successful decode
(lines 194–292): re-encode, re-decode, hash, compare.  Returns
(signature, bugTriggered, fell through to the coverage update). -/
def classifyRun (input : List Nat) (r : SutRun) : RuntimeSignature × Bool × Bool :=
  if r.unmarshalPanics then
    ((newRuntimeSignature.bump "Panic").withBugFound, true, true)
  else if r.unmarshalErrs then
    ({ newRuntimeSignature with nonBugErrorCount := 1 }, false, true)
  else
    match r.marshal with
    | .panic => ((newRuntimeSignature.bump "MarshalPanic").withBugFound, true, true)
    | .err => ({ newRuntimeSignature with nonBugErrorCount := 1 }, false, true)
    | .ok reenc =>
      if r.remarshalErrs then
        ({ newRuntimeSignature with nonBugErrorCount := 1 }, false, false)
      else
        match r.reencodedHash with
        | .panic => ((newRuntimeSignature.bump "HashTreeRootPanic").withBugFound, true, false)
        | .err => ({ newRuntimeSignature with nonBugErrorCount := 1 }, false, false)
        | .ok reHash =>
          if r.hasCanonicalizer then
            if r.canonicalizeErrs then
              ({ newRuntimeSignature with nonBugErrorCount := 1 }, false, false)
            else
              match r.canonicalHash with
              | .panic =>
                  ((newRuntimeSignature.bump "HashTreeRootPanic").withBugFound, true, false)
              | .err => ({ newRuntimeSignature with nonBugErrorCount := 1 }, false, false)
              | .ok origHash => classifyHashes input reenc origHash reHash r.dirtyPadding
          else
            match r.originalHash with
            | .panic =>
                ((newRuntimeSignature.bump "HashTreeRootPanic").withBugFound, true, false)
            | .err => ({ newRuntimeSignature with nonBugErrorCount := 1 }, false, false)
            | .ok origHash => classifyHashes input reenc origHash reHash r.dirtyPadding

/-- Result of one `Execute` call, including the updated
`globalSeenCIDs` fuzzer state. -/
structure ExecuteResult where
  signature : RuntimeSignature
  bugTriggered : Bool
  newCoverageFound : Bool
  trace : List Nat
  seen : List Nat

/-- Insert the CIDs of `trace` into `seen`, counting the newly seen ones
(the coverage loop of `Execute`, lines 296–302). -/
def updateSeen (seen : List Nat) : List Nat → List Nat × Nat
  | [] => (seen, 0)
  | c :: cs =>
      if c ∈ seen then updateSeen seen cs
      else
        let r := updateSeen (seen ++ [c]) cs
        (r.1, r.2 + 1)

/-- Model of `InProcessFuzzer.Execute` (src/fuzzer/in_process_fuzzer.go,
lines 138–314).  `seen` is the fuzzer's `globalSeenCIDs` state. -/
def executeModel (seen : List Nat) (input : List Nat) (r : SutRun) : ExecuteResult :=
  if !r.isUnmarshaler || !r.isMarshaler then
    ⟨{ newRuntimeSignature with nonBugErrorCount := 1 }, false, false, [], seen⟩
  else
    let trace := r.rawTrace
    let c := classifyRun input r
    if c.2.2 then
      let upd := updateSeen seen trace
      ⟨c.1, c.2.1, upd.2 > 0, trace, upd.1⟩
    else
      ⟨c.1, c.2.1, false, trace, seen⟩

theorem classifyHashes_bug_iff (input reenc : List Nat) (oh rh : Nat) (d : Bool) :
    (classifyHashes input reenc oh rh d).2.1 = true ↔
      1 ≤ (classifyHashes input reenc oh rh d).1.bugFoundCount := by
  unfold classifyHashes
  split
  · simp [newRuntimeSignature, RuntimeSignature.bump, RuntimeSignature.withBugFound]
  · split <;>
      simp [newRuntimeSignature, RuntimeSignature.bump, RuntimeSignature.withBugFound]

theorem classifyRun_bug_iff (input : List Nat) (r : SutRun) :
    (classifyRun input r).2.1 = true ↔ 1 ≤ (classifyRun input r).1.bugFoundCount := by
  unfold classifyRun
  repeat' split
  all_goals
    first
      | apply classifyHashes_bug_iff
      | simp [newRuntimeSignature, RuntimeSignature.bump, RuntimeSignature.withBugFound]

/-- C9: for every fuzzer state, input byte string, and SUT behavior,
`Execute` returns `bugTriggered = true` exactly when the returned
`RuntimeSignature` has `BugFoundCount >= 1`. -/
theorem execute_bugTriggered_iff_bugFound (seen input : List Nat) (r : SutRun) :
    (executeModel seen input r).bugTriggered = true ↔
      1 ≤ (executeModel seen input r).signature.bugFoundCount := by
  unfold executeModel
  split
  · simp [newRuntimeSignature]
  · simp only []
    split <;> simpa using classifyRun_bug_iff input r

/-- The SUT behavior that exhibits the C3 counterexample: decode succeeds,
re-encode succeeds with bytes `[1]` (different from the input `[0]`),
re-decode succeeds, the re-encoded root is 2 while the original root is 3,
and no dirty padding is detected. -/
def semanticMismatchRun : SutRun :=
  { isUnmarshaler := true, isMarshaler := true, unmarshalPanics := false,
    unmarshalErrs := false, marshal := .ok [1], remarshalErrs := false,
    reencodedHash := .ok 2, hasCanonicalizer := false, canonicalizeErrs := false,
    canonicalHash := .ok 0, originalHash := .ok 3, dirtyPadding := false,
    rawTrace := [] }

/-- C3 counterexample: an input whose re-encoding differs byte-wise from
the input is classified `SemanticMismatch` (not a step-4 kind), because
`Execute` compares roots before bytes. -/
theorem execute_semanticMismatch_despite_byte_diff :
    (executeModel [] [0] semanticMismatchRun).signature.bugKinds "SemanticMismatch" = 1 ∧
    (executeModel [] [0] semanticMismatchRun).signature.bugKinds "BitvectorDirtyPadding" = 0 ∧
    (executeModel [] [0] semanticMismatchRun).signature.bugKinds "RoundTripMismatch" = 0 ∧
    (executeModel [] [0] semanticMismatchRun).bugTriggered = true ∧
    semanticMismatchRun.marshal = .ok [1] ∧ ([1] : List Nat) ≠ [0] := by
  refine ⟨rfl, rfl, rfl, rfl, rfl, by decide⟩

/-- C3 (amended): when the SUT decode and re-encode both succeed and the
re-encoded bytes differ from the input, `Execute` always reports a bug
(`bugTriggered`, `BugFoundCount = 1`), but the root comparison of step 5
runs first: on a root mismatch the kind is `BitvectorDirtyPadding` or
`SemanticMismatch`; only when the roots agree is the byte-level mismatch
classified as `BitvectorDirtyPadding` or `RoundTripMismatch`. -/
theorem execute_byte_diff_classification (seen input reenc : List Nat) (r : SutRun)
    (reHash origHash : Nat)
    (hU : r.isUnmarshaler = true) (hM : r.isMarshaler = true)
    (hP : r.unmarshalPanics = false) (hE : r.unmarshalErrs = false)
    (hmar : r.marshal = .ok reenc) (hrem : r.remarshalErrs = false)
    (hrh : r.reencodedHash = .ok reHash)
    (hOrig : (r.hasCanonicalizer = true ∧ r.canonicalizeErrs = false ∧
                r.canonicalHash = .ok origHash) ∨
             (r.hasCanonicalizer = false ∧ r.originalHash = .ok origHash))
    (hne : input ≠ reenc) :
    (executeModel seen input r).bugTriggered = true ∧
    (executeModel seen input r).signature.bugFoundCount = 1 ∧
    (executeModel seen input r).signature.bugKinds
      (if origHash ≠ reHash then
        (if r.dirtyPadding then "BitvectorDirtyPadding" else "SemanticMismatch")
       else
        (if r.dirtyPadding then "BitvectorDirtyPadding" else "RoundTripMismatch")) = 1 := by
  have hcl : classifyRun input r = classifyHashes input reenc origHash reHash r.dirtyPadding := by
    unfold classifyRun
    rw [hP, hE, hmar]
    simp only [Bool.false_eq_true, if_false]
    rw [hrem]
    simp only [Bool.false_eq_true, if_false]
    rw [hrh]
    rcases hOrig with ⟨hc, hce, hch⟩ | ⟨hc, hoh⟩
    · rw [hc, hce, hch]
      simp
    · rw [hc, hoh]
      simp
  have hexec : executeModel seen input r =
      (let c := classifyHashes input reenc origHash reHash r.dirtyPadding
       if c.2.2 then
         let upd := updateSeen seen r.rawTrace
         ⟨c.1, c.2.1, upd.2 > 0, r.rawTrace, upd.1⟩
       else ⟨c.1, c.2.1, false, r.rawTrace, seen⟩) := by
    unfold executeModel
    rw [hU, hM]
    simp [hcl]
  rw [hexec]
  unfold classifyHashes
  by_cases hrooteq : origHash ≠ reHash
  · rw [if_pos hrooteq]
    simp only [if_pos hrooteq]
    refine ⟨rfl, rfl, ?_⟩
    simp [newRuntimeSignature, RuntimeSignature.bump, RuntimeSignature.withBugFound]
  · rw [if_neg hrooteq]
    simp only [if_neg hrooteq, if_pos hne]
    refine ⟨rfl, rfl, ?_⟩
    simp [newRuntimeSignature, RuntimeSignature.bump, RuntimeSignature.withBugFound]

/-- Witness for C3's amended theorem, at the counterexample's concrete run. -/
theorem execute_byte_diff_classification_witness :
    semanticMismatchRun.isUnmarshaler = true ∧
    semanticMismatchRun.marshal = .ok [1] ∧
    (([0] : List Nat) ≠ [1]) ∧
    ((executeModel [] [0] semanticMismatchRun).bugTriggered = true ∧
      (executeModel [] [0] semanticMismatchRun).signature.bugFoundCount = 1 ∧
      (executeModel [] [0] semanticMismatchRun).signature.bugKinds
        (if (3 : Nat) ≠ 2 then
          (if semanticMismatchRun.dirtyPadding then "BitvectorDirtyPadding"
           else "SemanticMismatch")
         else
          (if semanticMismatchRun.dirtyPadding then "BitvectorDirtyPadding"
           else "RoundTripMismatch")) = 1) :=
  ⟨rfl, rfl, by decide,
    execute_byte_diff_classification [] [0] [1] semanticMismatchRun 2 3
      rfl rfl rfl rfl rfl rfl rfl (Or.inr ⟨rfl, rfl⟩) (by decide)⟩

/-! ## Byte-level mutator (`rl/mutation.go`)

`ApplyMutations` edits already-serialized bytes.  The gap mutation fills
the inserted gap with `rand.Read`, i.e. bytes drawn from the process-global
`math/rand` source; that hidden state is made explicit here as a
`RandState` that is threaded through. -/

/-- Model of `concretizer.MutationType` (src/concretizer/concretizer.go). -/
inductive MutationType where
  | value | offset | gap
deriving DecidableEq, Repr

/-- Model of `concretizer.Mutation`. -/
structure Mutation where
  type : MutationType
  fieldName : String
  value : List Nat
  offsetDelta : Int
  gapSize : Int
deriving Repr

/-- Go type descriptor, as far as `guessFixedSizeByType` inspects it
(struct fields are the exported ones). -/
inductive GoTy where
  | bool | u8 | u16 | u32 | u64
  | arr (elem : GoTy) (len : Nat)
  | strct (fields : List GoTy)
  | slice (elem : GoTy)

mutual

/-- Model of `guessFixedSizeByType` (src/rl/mutation.go): size of the type
in the fixed part, `-1` when not fixed. -/
def guessFixedSizeByType : GoTy → Int
  | .bool => 1
  | .u8 => 1
  | .u16 => 2
  | .u32 => 4
  | .u64 => 8
  | .arr elem len =>
      let elemSize := guessFixedSizeByType elem
      if elemSize > 0 then elemSize * len else -1
  | .strct fields =>
      goStructSum fields
  | .slice _ => -1

/-- The struct-field summation of `guessFixedSizeByType` (a `-1` field size
makes the whole struct non-fixed). -/
def goStructSum : List GoTy → Int
  | [] => 0
  | f :: fs =>
      let s := guessFixedSizeByType f
      if s = -1 then -1
      else
        let rest := goStructSum fs
        if rest = -1 then -1 else s + rest

end

/-- One field of the target schema as `ApplyMutations` sees it: its Go type
and its `ssz-size` tag (`none` when the tag is absent; a present tag whose
`Atoi` fails behaves as `0`). -/
structure MutationField where
  ty : GoTy
  sszSize : Option Nat

/-- The per-field location data `ApplyMutations` computes (its local
`FieldInfo`). -/
structure FieldInfo where
  fixedPartOffset : Nat
  isVariable : Bool
deriving DecidableEq, Repr

/-- The field-mapping loop of `ApplyMutations` (lines 37–76): walk the
schema fields accumulating `currentFixedOffset`. -/
def buildFieldInfos : List MutationField → Nat → List FieldInfo
  | [], _ => []
  | f :: fs, cur =>
      let p : Bool × Nat :=
        match f.ty, f.sszSize with
        | GoTy.slice elem, some n =>
            let elemSize := guessFixedSizeByType elem
            if elemSize > 0 then (false, n * elemSize.toNat) else (false, n * 4)
        | GoTy.slice _, none => (true, 4)
        | t, _ =>
            let s := guessFixedSizeByType t
            if s = -1 then (true, 4) else (false, s.toNat)
      ⟨cur, p.1⟩ :: buildFieldInfos fs (cur + p.2)

/-- The process-global `math/rand` source, as an infinite byte stream with
a read cursor. -/
structure RandState where
  stream : Nat → Nat
  pos : Nat

/-- Model of `rand.Read(buf)` for a buffer of `k` bytes. -/
def randRead (r : RandState) (k : Nat) : List Nat × RandState :=
  ((List.range k).map (fun i => r.stream (r.pos + i) % 256), ⟨r.stream, r.pos + k⟩)

/-- `binary.LittleEndian.Uint32(bytes[p:])`. -/
def readU32At (bytes : List Nat) (p : Nat) : Nat :=
  leDecode ((bytes.drop p).take 4)

/-- `binary.LittleEndian.PutUint32(bytes[p:], v)`. -/
def writeU32At (bytes : List Nat) (p : Nat) (v : Nat) : List Nat :=
  bytes.take p ++ leBytes 4 (v % 2 ^ 32) ++ bytes.drop (p + 4)

/-- The offset-rewrite loop after a gap insertion (lines 111–121): shift
every variable field's offset word by the gap size. -/
def shiftOffsets (infos : List FieldInfo) (gap : Nat) (bytes : List Nat) : List Nat :=
  infos.foldl
    (fun acc f =>
      if f.isVariable && decide (f.fixedPartOffset + 4 ≤ acc.length) then
        writeU32At acc f.fixedPartOffset (readU32At acc f.fixedPartOffset + gap)
      else acc)
    bytes

/-- The mutation-application loop of `ApplyMutations` (lines 79–128): a gap
mutation inserts random bytes before the first variable payload, rewrites
the offset words, and breaks; other mutation types do nothing. -/
def applyMutationsLoop (fieldInfos : List FieldInfo) :
    List Mutation → List Nat → RandState → List Nat × RandState
  | [], bytes, rng => (bytes, rng)
  | m :: ms, bytes, rng =>
      if m.type = .gap && decide (m.gapSize > 0) then
        match fieldInfos.find? (fun f => f.isVariable) with
        | some fv =>
            let ptrOffset := fv.fixedPartOffset
            if ptrOffset + 4 > bytes.length then
              applyMutationsLoop fieldInfos ms bytes rng
            else
              let heapOffset := readU32At bytes ptrOffset
              let gr := randRead rng m.gapSize.toNat
              let clamped := if heapOffset > bytes.length then bytes.length else heapOffset
              let newBytes := bytes.take clamped ++ gr.1 ++ bytes.drop clamped
              (shiftOffsets fieldInfos m.gapSize.toNat newBytes, gr.2)
        | none => applyMutationsLoop fieldInfos ms bytes rng
      else
        applyMutationsLoop fieldInfos ms bytes rng

/-- Model of `rl.ApplyMutations` (src/rl/mutation.go): the target schema is
its list of (exported) struct fields; the hidden `math/rand` state is
passed and returned explicitly. -/
def applyMutations (sszBytes : List Nat) (mutations : List Mutation)
    (targetSchema : List MutationField) (rng : RandState) : List Nat × RandState :=
  if mutations.isEmpty then (sszBytes, rng)
  else
    let fieldInfos := buildFieldInfos targetSchema 0
    applyMutationsLoop fieldInfos mutations sszBytes rng

/-- The one-variable-field schema used in the C8 counterexample
(`struct { A []byte }`, no `ssz-size` tag). -/
def gapSchema : List MutationField :=
  [{ ty := GoTy.slice GoTy.u8, sszSize := none }]

/-- A gap mutation of one byte. -/
def gapMutation : Mutation :=
  { type := .gap, fieldName := "A", value := [], offsetDelta := 0, gapSize := 1 }

/-- C8 counterexample: two calls of `ApplyMutations` with identical
serialized bytes, identical mutation list and identical target schema
return different outputs when the global random source is in different
states — the inserted gap byte comes from `rand.Read`. -/
theorem applyMutations_not_pure :
    (applyMutations [4, 0, 0, 0] [gapMutation] gapSchema ⟨fun _ => 0, 0⟩).1 = [5, 0, 0, 0, 0] ∧
    (applyMutations [4, 0, 0, 0] [gapMutation] gapSchema ⟨fun _ => 0xAB, 0⟩).1 = [5, 0, 0, 0, 0xAB] ∧
    (applyMutations [4, 0, 0, 0] [gapMutation] gapSchema ⟨fun _ => 0, 0⟩).1 ≠
      (applyMutations [4, 0, 0, 0] [gapMutation] gapSchema ⟨fun _ => 0xAB, 0⟩).1 := by
  refine ⟨rfl, rfl, by decide⟩

/-- C8 (amended): `ApplyMutations` is a pure function of its arguments
*and the global PRNG state*; in particular, whenever the mutation list
contains no applicable gap mutation (type `Gap` with positive size), the
output is independent of the PRNG state and equal to the input bytes. -/
theorem applyMutations_pure_without_gap (sszBytes : List Nat)
    (mutations : List Mutation) (targetSchema : List MutationField)
    (rng1 rng2 : RandState)
    (hng : ∀ m ∈ mutations, ¬(m.type = .gap ∧ m.gapSize > 0)) :
    (applyMutations sszBytes mutations targetSchema rng1).1 =
      (applyMutations sszBytes mutations targetSchema rng2).1 ∧
    (applyMutations sszBytes mutations targetSchema rng1).1 = sszBytes := by
  have hloop : ∀ (ms : List Mutation) (infos : List FieldInfo) (bytes : List Nat)
      (rng : RandState), (∀ m ∈ ms, ¬(m.type = .gap ∧ m.gapSize > 0)) →
      (applyMutationsLoop infos ms bytes rng).1 = bytes := by
    intro ms
    induction ms with
    | nil => intro infos bytes rng _; rfl
    | cons m ms ih =>
        intro infos bytes rng h
        have hm := h m (List.mem_cons_self _ _)
        have hcond : (m.type = MutationType.gap && decide (m.gapSize > 0)) = false := by
          by_cases ht : m.type = MutationType.gap
          · have : ¬ (m.gapSize > 0) := fun hgt => hm ⟨ht, hgt⟩
            simp [ht, this]
          · simp [ht]
        rw [applyMutationsLoop]
        rw [hcond]
        simp only [Bool.false_eq_true, if_false]
        exact ih infos bytes rng (fun m' hm' => h m' (List.mem_cons_of_mem _ hm'))
  unfold applyMutations
  by_cases hemp : mutations.isEmpty
  · simp [hemp]
  · simp only [hemp, Bool.false_eq_true, if_false]
    constructor
    · rw [hloop mutations _ sszBytes rng1 hng, hloop mutations _ sszBytes rng2 hng]
    · exact hloop mutations _ sszBytes rng1 hng

/-- Witness for C8's amended theorem: a value mutation leaves the bytes
unchanged under both PRNG states. -/
theorem applyMutations_pure_without_gap_witness :
    (∀ m ∈ [({ type := .value, fieldName := "A", value := [7], offsetDelta := 0,
               gapSize := 0 } : Mutation)], ¬(m.type = .gap ∧ m.gapSize > 0)) ∧
    ((applyMutations [4, 0, 0, 0]
        [{ type := .value, fieldName := "A", value := [7], offsetDelta := 0, gapSize := 0 }]
        gapSchema ⟨fun _ => 0, 0⟩).1 =
      (applyMutations [4, 0, 0, 0]
        [{ type := .value, fieldName := "A", value := [7], offsetDelta := 0, gapSize := 0 }]
        gapSchema ⟨fun _ => 0xAB, 0⟩).1 ∧
     (applyMutations [4, 0, 0, 0]
        [{ type := .value, fieldName := "A", value := [7], offsetDelta := 0, gapSize := 0 }]
        gapSchema ⟨fun _ => 0, 0⟩).1 = [4, 0, 0, 0]) :=
  ⟨by intro m hm; simp at hm; subst hm; simp,
    applyMutations_pure_without_gap [4, 0, 0, 0] _ gapSchema ⟨fun _ => 0, 0⟩
      ⟨fun _ => 0xAB, 0⟩ (by intro m hm; simp at hm; subst hm; simp)⟩

/-! ## Reference encoder (`internal/sszref/encode.go`)

The reference codec walks Go values with reflection.  A `reflect.Value` is
modelled as a pair of a type descriptor `Ty` (what `reflect.Type` exposes
to the encoder: kind, array length, element type, struct fields with their
parsed tags) and pure data `Val`.  A struct's `Ty` lists the fields that
`collectFields` returns (exported, embedded structs already inlined),
each with its `parseTagContext` result.  Pointers (always dereferenced or
zero-filled) and `time.Time` are not represented: no claim touches them. -/

/-- Model of `sszref.tagContext` (src/internal/sszref/encode.go): parsed
`ssz-size` / `ssz-max` tag lists (with `-1` as the "unknown" sentinel) and
the bitlist flag. -/
structure TagCtx where
  sizes : List Int
  maxes : List Int
  isBitlist : Bool
deriving DecidableEq, Repr

/-- Model of `tagContext.size()`. -/
def TagCtx.size (ctx : TagCtx) : Option Nat :=
  match ctx.sizes with
  | [] => none
  | s :: _ => if s < 0 then none else some s.toNat

/-- Model of `tagContext.max()`. -/
def TagCtx.max (ctx : TagCtx) : Option Nat :=
  match ctx.maxes with
  | [] => none
  | m :: _ => if m < 0 then none else some m.toNat

/-- Model of `tagContext.shift()`: drop one nesting level. -/
def TagCtx.shift (ctx : TagCtx) : TagCtx :=
  { sizes := if ctx.sizes.length > 1 then ctx.sizes.tail else [],
    maxes := if ctx.maxes.length > 1 then ctx.maxes.tail else [],
    isBitlist := false }

/-- The type structure the reference encoder dispatches on (the fragment of
`reflect.Type` it consults). -/
inductive Ty where
  | bool | u8 | u16 | u32 | u64
  | arr (elem : Ty) (len : Nat)
  | slice (elem : Ty)
  | strct (fields : List (TagCtx × Ty))

/-- The pure data of a Go value of some `Ty` (a struct value lists its
collected field values in declaration order). -/
inductive Val where
  | bool (b : Bool)
  | u8 (n : Nat)
  | u16 (n : Nat)
  | u32 (n : Nat)
  | u64 (n : Nat)
  | arr (elems : List Val)
  | slice (elems : List Val)
  | strct (fields : List Val)

mutual

/-- Model of `sszref.fixedSizeOfType` (src/internal/sszref/encode.go). -/
def fixedSizeOfTy : Ty → TagCtx → Option Nat
  | .bool, _ => some 1
  | .u8, _ => some 1
  | .u16, _ => some 2
  | .u32, _ => some 4
  | .u64, _ => some 8
  | .arr elem len, ctx =>
      match fixedSizeOfTy elem ctx.shift with
      | none => none
      | some s => some (s * len)
  | .slice elem, ctx =>
      if ctx.isBitlist then none
      else
        match ctx.size with
        | none => none
        | some size =>
            match fixedSizeOfTy elem ctx.shift with
            | none => none
            | some s => some (s * size)
  | .strct fields, _ => fixedSizeOfFields fields

/-- The struct branch of `fixedSizeOfType`: sum the fields' fixed sizes,
failing if any field is variable. -/
def fixedSizeOfFields : List (TagCtx × Ty) → Option Nat
  | [] => some 0
  | (c, t) :: fs =>
      match fixedSizeOfTy t c with
      | none => none
      | some s =>
          match fixedSizeOfFields fs with
          | none => none
          | some rest => some (s + rest)

end

mutual

/-- A value conforms to a type: the shapes match, integers fit their
width, and array lengths equal the declared length (the invariants
`reflect` guarantees for a real Go value). -/
def wtv : Ty → Val → Bool
  | .bool, .bool _ => true
  | .u8, .u8 n => decide (n < 2 ^ 8)
  | .u16, .u16 n => decide (n < 2 ^ 16)
  | .u32, .u32 n => decide (n < 2 ^ 32)
  | .u64, .u64 n => decide (n < 2 ^ 64)
  | .arr elem len, .arr es => es.length == len && wtvList elem es
  | .slice elem, .slice es => wtvList elem es
  | .strct fields, .strct vs => wtvFields fields vs
  | _, _ => false

def wtvList : Ty → List Val → Bool
  | _, [] => true
  | t, v :: vs => wtv t v && wtvList t vs

def wtvFields : List (TagCtx × Ty) → List Val → Bool
  | [], [] => true
  | (_, t) :: fs, v :: vs => wtv t v && wtvFields fs vs
  | _, _ => false

end

/-- `buf[i] = byte(v.Index(i).Uint())` over a `[]byte` / `[N]byte` value
(under `wtv` every element is a `Val.u8`; anything else is unreachable for
a real Go value and is reported as an unsupported kind). -/
def bytesOfVals : List Val → Except String (List Nat)
  | [] => .ok []
  | .u8 n :: vs => do
      let rest ← bytesOfVals vs
      .ok ((n % 256) :: rest)
  | _ :: _ => .error "sszref: unsupported kind"

/-- The `fixedLen` computation of `encodeStruct` (first loop, lines 70–78):
each fixed field contributes its fixed size, each variable field a 4-byte
offset word. -/
def structFixedLen (fields : List (TagCtx × Ty)) : Nat :=
  (fields.map fun ct =>
    match fixedSizeOfTy ct.2 ct.1 with
    | some s => s
    | none => 4).sum

mutual

/-- Model of `sszref.encodeValue` (src/internal/sszref/encode.go),
dispatching on the reflected kind. -/
def encodeValue : Ty → Val → TagCtx → Except String (List Nat)
  | .bool, .bool b, _ => .ok (if b then [1] else [0])
  | .u8, .u8 n, _ => .ok [n % 256]
  | .u16, .u16 n, _ => .ok (leBytes 2 n)
  | .u32, .u32 n, _ => .ok (leBytes 4 n)
  | .u64, .u64 n, _ => .ok (leBytes 8 n)
  | .arr elem _, .arr es, ctx => encodeArray elem es ctx
  | .slice elem, .slice es, ctx => encodeSlice elem es ctx
  | .strct fields, .strct vs, _ => encodeStruct fields vs
  | _, _, _ => .error "sszref: unsupported kind"
termination_by _ v _ => (sizeOf v, 0)

/-- Model of `sszref.encodeArray`. -/
def encodeArray (elem : Ty) (es : List Val) (ctx : TagCtx) : Except String (List Nat) :=
  match elem with
  | .u8 => bytesOfVals es
  | _ => encodeSeq elem es ctx.shift
termination_by (sizeOf es, 1)

/-- The element-concatenation loop shared by `encodeArray` and the
fixed-element branch of `encodeSlice`. -/
def encodeSeq (elem : Ty) (es : List Val) (ectx : TagCtx) : Except String (List Nat) :=
  match es with
  | [] => .ok []
  | v :: vs => do
      let e ← encodeValue elem v ectx
      let rest ← encodeSeq elem vs ectx
      .ok (e ++ rest)
termination_by (sizeOf es, 0)

/-- Model of `sszref.encodeSlice`. -/
def encodeSlice (elem : Ty) (es : List Val) (ctx : TagCtx) : Except String (List Nat) :=
  if ctx.isBitlist then encodeBitlist elem es ctx
  else
    match ctx.size with
    | some size =>
        if es.length ≠ size then .error "sszref: vector length mismatch"
        else encodeSliceBody elem es ctx
    | none =>
        match ctx.max with
        | some mx =>
            if es.length > mx then .error "sszref: list length exceeds max"
            else encodeSliceBody elem es ctx
        | none => encodeSliceBody elem es ctx
termination_by (sizeOf es, 3)

/-- The post-length-check body of `encodeSlice`: fixed-size elements are
concatenated, variable-size elements get an offset table. -/
def encodeSliceBody (elem : Ty) (es : List Val) (ctx : TagCtx) : Except String (List Nat) :=
  match fixedSizeOfTy elem ctx.shift with
  | some _ => encodeSeq elem es ctx.shift
  | none => do
      let r ← encodeVarSeq elem es ctx.shift (4 * es.length)
      .ok (r.1 ++ r.2.1.flatten)
termination_by (sizeOf es, 2)

/-- The variable-element loop of `encodeSlice`: accumulate offset words and
payloads (`off` is the running offset). -/
def encodeVarSeq (elem : Ty) (es : List Val) (ectx : TagCtx) (off : Nat) :
    Except String (List Nat × List (List Nat) × Nat) :=
  match es with
  | [] => .ok ([], [], off)
  | v :: vs => do
      let e ← encodeValue elem v ectx
      let r ← encodeVarSeq elem vs ectx (off + e.length)
      .ok (leBytes 4 (off % 2 ^ 32) ++ r.1, e :: r.2.1, r.2.2)
termination_by (sizeOf es, 1)

/-- Model of `sszref.encodeBitlist`. -/
def encodeBitlist (elem : Ty) (es : List Val) (ctx : TagCtx) : Except String (List Nat) :=
  match elem with
  | .u8 => do
      let raw ← bytesOfVals es
      let maxBits : Int :=
        match ctx.max with
        | some m => (m : Int)
        | none => -1
      match validateBitlist raw maxBits with
      | .error e => .error e
      | .ok _ => .ok raw
  | _ => .error "sszref: bitlist must be []byte"

/-- Model of `sszref.encodeStruct` (src/internal/sszref/encode.go, lines
64–109): compute the fixed length, then lay out the fixed section and the
variable payloads. -/
def encodeStruct (fields : List (TagCtx × Ty)) (vs : List Val) : Except String (List Nat) := do
  let r ← encodeStructLoop fields vs (structFixedLen fields)
  .ok (r.1 ++ r.2.1.flatten)
termination_by (sizeOf vs, 1)

/-- The field loop of `encodeStruct`: returns (fixed section, variable
payloads in declaration order, final offset). -/
def encodeStructLoop (fields : List (TagCtx × Ty)) (vs : List Val) (off : Nat) :
    Except String (List Nat × List (List Nat) × Nat) :=
  match fields, vs with
  | [], [] => .ok ([], [], off)
  | (c, t) :: fs, v :: vs' =>
      match fixedSizeOfTy t c with
      | some _ => do
          let e ← encodeValue t v c
          let r ← encodeStructLoop fs vs' off
          .ok (e ++ r.1, r.2.1, r.2.2)
      | none => do
          let e ← encodeValue t v c
          let r ← encodeStructLoop fs vs' (off + e.length)
          .ok (leBytes 4 (off % 2 ^ 32) ++ r.1, e :: r.2.1, r.2.2)
  | _, _ => .error "sszref: struct field mismatch"
termination_by (sizeOf vs, 0)

end

/-! ## Dirty-padding heuristic (`fuzzer/in_process_fuzzer.go`, lines 27–81) -/

/-- A byte element with masked bits set (`v.Index(i).Uint() & mask != 0`;
under `wtv` the element is always a `Val.u8`). -/
def byteDirty (v : Val) (mask : Nat) : Bool :=
  match v with
  | .u8 n => decide ((n % 256) &&& mask ≠ 0)
  | _ => false

mutual

/-- Model of `fuzzer.detectDirtyPadding`: scan a decoded value for
byte arrays/slices with high bits set.  A `[1]byte` is treated as a
Bitvector4 and flagged when its high nibble is set; *any other* byte
array or slice is flagged when *any* element has one of its top two bits
set (`& 0xC0`).  The declared schema (the field's tags) is never
consulted. -/
def detectDirtyPadding : Ty → Val → Bool
  | .strct fields, .strct vs => detectDirtyFields fields vs
  | .arr elem _, .arr es =>
      match elem with
      | .u8 =>
          if es.length = 1 then es.any (fun v => byteDirty v 0xF0)
          else es.any (fun v => byteDirty v 0xC0)
      | _ => detectDirtyList elem es
  | .slice elem, .slice es =>
      match elem with
      | .u8 => es.any (fun v => byteDirty v 0xC0)
      | _ => detectDirtyList elem es
  | _, _ => false
termination_by _ v => (sizeOf v, 0)

/-- Element recursion of `detectDirtyPadding` (non-byte arrays/slices). -/
def detectDirtyList : Ty → List Val → Bool
  | _, [] => false
  | t, v :: vs => detectDirtyPadding t v || detectDirtyList t vs
termination_by _ vs => (sizeOf vs, 1)

/-- Field recursion of `detectDirtyPadding` (struct case). -/
def detectDirtyFields : List (TagCtx × Ty) → List Val → Bool
  | (_, t) :: fs, v :: vs => detectDirtyPadding t v || detectDirtyFields fs vs
  | _, _ => false
termination_by _ vs => (sizeOf vs, 1)

end

/-- The tag context of a plain `[]byte` field (no `ssz-size`, no `ssz-max`,
not declared a bitlist — in particular not a declared `Bitvector(N)`). -/
def plainByteSliceCtx : TagCtx := ⟨[], [], false⟩

/-- C5: `detectDirtyPadding` flags ordinary byte content in a plain,
non-bitvector `[]byte` field: any element with one of its top two bits set
(any byte `>= 0x40`, hence in particular any byte `>= 0xC0`) makes it
report `true`, even though no `Bitvector(N)` field exists whose declared
width could be exceeded.  The claim (spec §9) says such content must never
be flagged. -/
theorem detectDirtyPadding_flags_plain_bytes :
    detectDirtyPadding (Ty.strct [(plainByteSliceCtx, Ty.slice Ty.u8)])
      (Val.strct [Val.slice [Val.u8 0xC0]]) = true ∧
    detectDirtyPadding (Ty.slice Ty.u8) (Val.slice [Val.u8 0xC0]) = true ∧
    detectDirtyPadding (Ty.slice Ty.u8) (Val.slice [Val.u8 0x40]) = true ∧
    detectDirtyPadding (Ty.slice Ty.u8) (Val.slice [Val.u8 0x3F]) = false ∧
    detectDirtyPadding (Ty.arr Ty.u8 1) (Val.arr [Val.u8 0x10]) = true := by
  refine ⟨?_, ?_, ?_, ?_, ?_⟩ <;>
    simp [detectDirtyPadding, detectDirtyFields, detectDirtyList, byteDirty]
  decide

/-! ## Merkleization (`internal/sszref/encode.go`, lines 632–698)

`hashConcat` wraps `crypto/sha256` (an external library primitive); the
definitions below are parameterized by that two-chunk hash function. -/

/-- A zeroed 32-byte chunk. -/
def zeroChunk : List Nat := List.replicate 32 0

/-- `copy(leaves[i][:], chunks[i])`: a chunk placed into a zeroed 32-byte
leaf (short chunks are zero-padded, long ones truncated). -/
def pad32 (c : List Nat) : List Nat :=
  c.take 32 ++ List.replicate (32 - c.length) 0

/-- The doubling loop of `nextPowerOfTwo` (`for p < n { p <<= 1 }`).
Go doubles a `uint64`; for every `n ≤ 2^63` no wrap occurs and this loop
agrees with it (for larger `n` the Go loop never terminates, so such
limits are outside the model). -/
def nptLoop (n p : Nat) (hp : 0 < p) : Nat :=
  if h : p < n then nptLoop n (p + p) (by omega) else p
termination_by n - p
decreasing_by omega

/-- Model of `sszref.nextPowerOfTwo`. -/
def nextPowerOfTwo (n : Nat) : Nat :=
  if n ≤ 1 then 1 else nptLoop n 1 (by omega)

/-- One halving pass of the merkleization loop
(`next[i/2] = hashConcat(leaves[i], leaves[i+1])`).  The loop only runs on
power-of-two-length leaf arrays, so the odd-singleton case is unreachable. -/
def pairPass (hash : List Nat → List Nat → List Nat) : List (List Nat) → List (List Nat)
  | a :: b :: rest => hash a b :: pairPass hash rest
  | _ => []

theorem pairPass_length (hash : List Nat → List Nat → List Nat) :
    ∀ ls : List (List Nat), (pairPass hash ls).length = ls.length / 2
  | [] => by simp [pairPass]
  | [a] => by simp [pairPass]
  | a :: b :: rest => by
      simp [pairPass, pairPass_length hash rest]
      omega

/-- The `for leafCount > 1` halving loop of `merkleizeChunks`. -/
def merkleLoop (hash : List Nat → List Nat → List Nat) (leaves : List (List Nat)) :
    List Nat :=
  if leaves.length ≤ 1 then leaves.headD zeroChunk
  else merkleLoop hash (pairPass hash leaves)
termination_by leaves.length
decreasing_by
  rw [pairPass_length]
  omega

/-- Model of `sszref.merkleizeChunks` (lines 632–653). -/
def merkleizeChunks (hash : List Nat → List Nat → List Nat)
    (chunks : List (List Nat)) (limit : Nat) : Except String (List Nat) :=
  let lim := if limit = 0 then 1 else limit
  if chunks.length > lim then .error "sszref: chunk count exceeds limit"
  else
    let leafCount := nextPowerOfTwo lim
    let leaves := chunks.map pad32 ++ List.replicate (leafCount - chunks.length) zeroChunk
    .ok (merkleLoop hash leaves)

/-- The claim's description of merkleization: the root of the perfect
binary hash tree of height `h` over a `2^h`-leaf array. -/
def merkleTreeRoot (hash : List Nat → List Nat → List Nat) :
    Nat → List (List Nat) → List Nat
  | 0, cs => cs.headD zeroChunk
  | h + 1, cs =>
      hash (merkleTreeRoot hash h (cs.take (2 ^ h)))
        (merkleTreeRoot hash h (cs.drop (2 ^ h)))

theorem nptLoop_pow (n p : Nat) (hp : 0 < p) (k : Nat) (hpk : p = 2 ^ k)
    (h : p < n) : nptLoop n p hp = 2 ^ Nat.clog 2 n := by
  rw [nptLoop, dif_pos h]
  by_cases h2 : p + p < n
  · exact nptLoop_pow n (p + p) (by omega) (k + 1) (by rw [hpk]; ring) h2
  · push_neg at h2
    have hpp : p + p = 2 ^ (k + 1) := by rw [hpk]; ring
    rw [nptLoop, dif_neg (by omega : ¬ p + p < n), hpp]
    have hcle : Nat.clog 2 n ≤ k + 1 :=
      (Nat.le_pow_iff_clog_le (by omega)).mp (by omega)
    have hcge : k + 1 ≤ Nat.clog 2 n := by
      by_contra hcon
      push_neg at hcon
      have hck : Nat.clog 2 n ≤ k := by omega
      have := (Nat.le_pow_iff_clog_le (by omega : (1 : Nat) < 2)).mpr hck
      omega
    have hce : Nat.clog 2 n = k + 1 := by omega
    rw [hce]
termination_by n - p
decreasing_by omega

/-- `nextPowerOfTwo n` is `2 ^ ⌈log₂ n⌉` for every positive `n` — the least
power of two that is at least `n`. -/
theorem nextPowerOfTwo_eq (n : Nat) (hn : 0 < n) :
    nextPowerOfTwo n = 2 ^ Nat.clog 2 n := by
  unfold nextPowerOfTwo
  by_cases h : n ≤ 1
  · have : n = 1 := by omega
    subst this
    simp [Nat.clog_one_right]
  · rw [if_neg h]
    exact nptLoop_pow n 1 (by omega) 0 (by norm_num) (by omega)

theorem pairPass_append (hash : List Nat → List Nat → List Nat) :
    ∀ l1 l2 : List (List Nat), l1.length % 2 = 0 →
      pairPass hash (l1 ++ l2) = pairPass hash l1 ++ pairPass hash l2
  | [], l2, _ => by simp [pairPass]
  | [a], l2, h => by simp at h
  | a :: b :: rest, l2, h => by
      have ih := pairPass_append hash rest l2 (by
        simp only [List.length_cons] at h
        omega)
      simp [pairPass, ih]

theorem merkleTreeRoot_pairPass (hash : List Nat → List Nat → List Nat) :
    ∀ (h : Nat) (cs : List (List Nat)), cs.length = 2 ^ (h + 1) →
      merkleTreeRoot hash h (pairPass hash cs) = merkleTreeRoot hash (h + 1) cs := by
  intro h
  induction h with
  | zero =>
      intro cs hlen
      match cs, hlen with
      | [a, b], _ => rfl
  | succ h ih =>
      intro cs hlen
      have hsplit : cs = cs.take (2 ^ (h + 1)) ++ cs.drop (2 ^ (h + 1)) :=
        (List.take_append_drop _ cs).symm
      have hlt : 2 ^ (h + 1) ≤ cs.length := by
        rw [hlen]
        exact Nat.pow_le_pow_right (by omega) (by omega)
      have hlen1 : (cs.take (2 ^ (h + 1))).length = 2 ^ (h + 1) := by
        simp [List.length_take]
        omega
      have hlen2 : (cs.drop (2 ^ (h + 1))).length = 2 ^ (h + 1) := by
        simp [List.length_drop, hlen]
        have : (2 : Nat) ^ (h + 1 + 1) = 2 ^ (h + 1) + 2 ^ (h + 1) := by ring
        omega
      have heven : (cs.take (2 ^ (h + 1))).length % 2 = 0 := by
        rw [hlen1]
        simp [Nat.pow_succ, Nat.mul_mod_left]
      have happ : pairPass hash cs =
          pairPass hash (cs.take (2 ^ (h + 1))) ++ pairPass hash (cs.drop (2 ^ (h + 1))) := by
        conv_lhs => rw [hsplit]
        exact pairPass_append hash _ _ heven
      have hpl1 : (pairPass hash (cs.take (2 ^ (h + 1)))).length = 2 ^ h := by
        rw [pairPass_length, hlen1]
        rw [Nat.pow_succ]
        omega
      have htake : (pairPass hash (cs.take (2 ^ (h + 1))) ++
          pairPass hash (cs.drop (2 ^ (h + 1)))).take (2 ^ h) =
          pairPass hash (cs.take (2 ^ (h + 1))) :=
        List.take_left' hpl1
      have hdrop : (pairPass hash (cs.take (2 ^ (h + 1))) ++
          pairPass hash (cs.drop (2 ^ (h + 1)))).drop (2 ^ h) =
          pairPass hash (cs.drop (2 ^ (h + 1))) :=
        List.drop_left' hpl1
      calc merkleTreeRoot hash (h + 1) (pairPass hash cs)
          = hash (merkleTreeRoot hash h ((pairPass hash cs).take (2 ^ h)))
              (merkleTreeRoot hash h ((pairPass hash cs).drop (2 ^ h))) := rfl
        _ = hash (merkleTreeRoot hash (h + 1) (cs.take (2 ^ (h + 1))))
              (merkleTreeRoot hash (h + 1) (cs.drop (2 ^ (h + 1)))) := by
              rw [happ, htake, hdrop, ih _ hlen1, ih _ hlen2]
        _ = merkleTreeRoot hash (h + 1 + 1) cs := rfl

theorem merkleLoop_eq_treeRoot (hash : List Nat → List Nat → List Nat) :
    ∀ (h : Nat) (cs : List (List Nat)), cs.length = 2 ^ h →
      merkleLoop hash cs = merkleTreeRoot hash h cs := by
  intro h
  induction h with
  | zero =>
      intro cs hlen
      rw [merkleLoop]
      rw [if_pos (by omega)]
      rfl
  | succ h ih =>
      intro cs hlen
      rw [merkleLoop]
      rw [if_neg (by
        rw [hlen]
        have : (2 : Nat) ^ (h + 1) ≥ 2 := by
          have := Nat.pow_le_pow_right (by omega : 1 ≤ 2) (by omega : 1 ≤ h + 1)
          simpa using this
        omega)]
      have hpl : (pairPass hash cs).length = 2 ^ h := by
        rw [pairPass_length, hlen, Nat.pow_succ]
        omega
      rw [ih _ hpl]
      exact merkleTreeRoot_pairPass hash h cs hlen

/-- C6: for every chunk list of length at most `max(limit, 1)` (with the
limit in `uint64`'s non-divergent range `≤ 2^63`), `merkleizeChunks` pads
the chunks with zero chunks up to `nextPowerOfTwo (max limit 1)` — the
least power of two `≥ max(limit, 1)` — and folds adjacent pairs with the
hash into the root of the perfect binary tree over those leaves; with zero
chunks and limit 0 it returns the all-zero 32-byte root. -/
theorem merkleizeChunks_spec (hash : List Nat → List Nat → List Nat)
    (chunks : List (List Nat)) (limit : Nat)
    (hle : chunks.length ≤ max limit 1) (hlim : limit ≤ 2 ^ 63) :
    merkleizeChunks hash chunks limit =
      .ok (merkleTreeRoot hash (Nat.clog 2 (max limit 1))
        (chunks.map pad32 ++
          List.replicate (nextPowerOfTwo (max limit 1) - chunks.length) zeroChunk)) ∧
    nextPowerOfTwo (max limit 1) = 2 ^ Nat.clog 2 (max limit 1) ∧
    merkleizeChunks hash [] 0 = .ok (List.replicate 32 0) := by
  have hmax : (if limit = 0 then 1 else limit) = max limit 1 := by
    split <;> omega
  have hnpt : nextPowerOfTwo (max limit 1) = 2 ^ Nat.clog 2 (max limit 1) :=
    nextPowerOfTwo_eq _ (by omega)
  have hleaf : max limit 1 ≤ nextPowerOfTwo (max limit 1) := by
    rw [hnpt]
    exact (Nat.le_pow_iff_clog_le (by omega)).mpr (le_refl _)
  refine ⟨?_, hnpt, ?_⟩
  · unfold merkleizeChunks
    simp only [hmax]
    rw [if_neg (by omega)]
    have hlen : (chunks.map pad32 ++
        List.replicate (nextPowerOfTwo (max limit 1) - chunks.length) zeroChunk).length =
        2 ^ Nat.clog 2 (max limit 1) := by
      simp [List.length_append, List.length_map, List.length_replicate]
      omega
    rw [merkleLoop_eq_treeRoot hash _ _ hlen]
  · unfold merkleizeChunks
    have h1 : nextPowerOfTwo 1 = 1 := by
      unfold nextPowerOfTwo
      rw [if_pos (by omega)]
    simp [h1, zeroChunk]
    rw [merkleLoop]
    simp [zeroChunk]

/-- Witness for C6 at two concrete chunks, limit 2, and a concrete hash. -/
theorem merkleizeChunks_spec_witness :
    ([(List.replicate 32 1 : List Nat), List.replicate 32 2].length ≤ max 2 1) ∧
    (2 : Nat) ≤ 2 ^ 63 ∧
    merkleizeChunks (fun a b => a ++ b)
        [List.replicate 32 1, List.replicate 32 2] 2 =
      .ok (merkleTreeRoot (fun a b => a ++ b) (Nat.clog 2 (max 2 1))
        ([List.replicate 32 1, List.replicate 32 2].map pad32 ++
          List.replicate (nextPowerOfTwo (max 2 1) - 2) zeroChunk)) := by
  refine ⟨by simp, by norm_num, ?_⟩
  have h := merkleizeChunks_spec (fun a b => a ++ b)
    [List.replicate 32 1, List.replicate 32 2] 2 (by simp) (by norm_num)
  exact h.1

/-! ## Layout of `encodeStruct` (claim C2)

Positions inside the output of `encodeStruct`: `wordPos fs i` is the byte
position of the `i`-th variable field's offset word inside the fixed
section, `partSum ps i` the total length of the first `i` variable
payloads, `varFields fs vs` the (field, value) pairs of the variable
fields in declaration order. -/

/-- Byte position of the `i`-th variable field's offset word in the fixed
section (fixed fields contribute their fixed size, earlier variable fields
a 4-byte word). -/
def wordPos : List (TagCtx × Ty) → Nat → Nat
  | [], _ => 0
  | (c, t) :: fs, i =>
      if (fixedSizeOfTy t c).isSome then (fixedSizeOfTy t c).getD 4 + wordPos fs i
      else
        match i with
        | 0 => 0
        | i + 1 => 4 + wordPos fs i

/-- Total length of the first `i` payloads. -/
def partSum (ps : List (List Nat)) (i : Nat) : Nat :=
  ((ps.take i).map List.length).sum

/-- The variable (field, value) pairs of a struct, in declaration order. -/
def varFields : List (TagCtx × Ty) → List Val → List ((TagCtx × Ty) × Val)
  | (c, t) :: fs, v :: vs =>
      if (fixedSizeOfTy t c).isSome then varFields fs vs
      else ((c, t), v) :: varFields fs vs
  | _, _ => []

theorem partSum_zero (ps : List (List Nat)) : partSum ps 0 = 0 := rfl

theorem partSum_cons (e : List Nat) (ps : List (List Nat)) (i : Nat) :
    partSum (e :: ps) (i + 1) = e.length + partSum ps i := by
  simp [partSum, List.take_succ_cons]

theorem partSum_le_total (ps : List (List Nat)) (i : Nat) :
    partSum ps i ≤ (ps.map List.length).sum := by
  induction ps generalizing i with
  | nil => simp [partSum]
  | cons e ps ih =>
      cases i with
      | zero => simp [partSum]
      | succ i =>
          rw [partSum_cons]
          simp only [List.map_cons, List.sum_cons]
          exact Nat.add_le_add_left (ih i) _

/-- The `i`-th block of a flattened list of blocks sits at byte position
`partSum ps i`. -/
theorem flatten_segment (ps : List (List Nat)) :
    ∀ i (h : i < ps.length),
      (ps.flatten.drop (partSum ps i)).take (ps.get ⟨i, h⟩).length = ps.get ⟨i, h⟩ := by
  induction ps with
  | nil => intro i h; simp at h
  | cons e ps ih =>
      intro i h
      cases i with
      | zero =>
          simp only [partSum_zero, List.drop_zero, List.flatten_cons, List.get]
          exact List.take_left' rfl
      | succ i =>
          have hi : i < ps.length := by simpa using h
          rw [partSum_cons]
          simp only [List.flatten_cons, List.get]
          rw [← List.drop_drop]
          rw [List.drop_left' (rfl : e.length = e.length)]
          exact ih i hi

theorem bytesOfVals_length : ∀ (es : List Val) (e : List Nat),
    bytesOfVals es = .ok e → e.length = es.length := by
  intro es
  induction es with
  | nil => intro e h; simp [bytesOfVals] at h; simp [← h]
  | cons v vs ih =>
      intro e h
      match v with
      | .u8 n =>
          simp only [bytesOfVals, bind, Except.bind] at h
          cases hrest : bytesOfVals vs with
          | error err => rw [hrest] at h; simp at h
          | ok rest =>
              rw [hrest] at h
              simp at h
              subst h
              simp [ih rest hrest]
      | .bool b => simp [bytesOfVals] at h
      | .u16 n => simp [bytesOfVals] at h
      | .u32 n => simp [bytesOfVals] at h
      | .u64 n => simp [bytesOfVals] at h
      | .arr es2 => simp [bytesOfVals] at h
      | .slice es2 => simp [bytesOfVals] at h
      | .strct es2 => simp [bytesOfVals] at h

theorem structFixedLen_of_fields : ∀ (fs : List (TagCtx × Ty)) (s : Nat),
    fixedSizeOfFields fs = some s → structFixedLen fs = s := by
  intro fs
  induction fs with
  | nil =>
      intro s h
      simp [fixedSizeOfFields] at h
      simp [structFixedLen, h]
  | cons ct fs ih =>
      intro s h
      obtain ⟨c, t⟩ := ct
      rw [fixedSizeOfFields] at h
      cases hft : fixedSizeOfTy t c with
      | none => rw [hft] at h; simp at h
      | some s1 =>
          rw [hft] at h
          cases hff : fixedSizeOfFields fs with
          | none => rw [hff] at h; simp at h
          | some s2 =>
              rw [hff] at h
              simp at h
              simp [structFixedLen, hft]
              have := ih s2 hff
              simp [structFixedLen] at this
              omega

theorem structFixedLen_cons (c : TagCtx) (t : Ty) (fs : List (TagCtx × Ty)) :
    structFixedLen ((c, t) :: fs) =
      (match fixedSizeOfTy t c with | some s => s | none => 4) + structFixedLen fs := by
  simp [structFixedLen]

mutual

/-- A fixed-size value encodes to exactly its declared fixed size (the
guarantee `reflect` typing gives the Go encoder). -/
theorem encodeValue_fixed_length (t : Ty) (v : Val) (c : TagCtx) (s : Nat) (e : List Nat)
    (hwt : wtv t v = true) (hfs : fixedSizeOfTy t c = some s)
    (henc : encodeValue t v c = .ok e) : e.length = s := by
  cases t with
  | bool =>
      cases v with
      | bool b =>
          simp only [encodeValue, Except.ok.injEq] at henc
          simp only [fixedSizeOfTy, Option.some.injEq] at hfs
          subst henc
          cases b <;> simp [← hfs]
      | u8 n => simp [wtv] at hwt
      | u16 n => simp [wtv] at hwt
      | u32 n => simp [wtv] at hwt
      | u64 n => simp [wtv] at hwt
      | arr es => simp [wtv] at hwt
      | slice es => simp [wtv] at hwt
      | strct vs => simp [wtv] at hwt
  | u8 =>
      cases v with
      | u8 n =>
          simp only [encodeValue, Except.ok.injEq] at henc
          simp only [fixedSizeOfTy, Option.some.injEq] at hfs
          subst henc
          simp [← hfs]
      | bool b => simp [wtv] at hwt
      | u16 n => simp [wtv] at hwt
      | u32 n => simp [wtv] at hwt
      | u64 n => simp [wtv] at hwt
      | arr es => simp [wtv] at hwt
      | slice es => simp [wtv] at hwt
      | strct vs => simp [wtv] at hwt
  | u16 =>
      cases v with
      | u16 n =>
          simp only [encodeValue, Except.ok.injEq] at henc
          simp only [fixedSizeOfTy, Option.some.injEq] at hfs
          subst henc
          simp [leBytes_length, ← hfs]
      | bool b => simp [wtv] at hwt
      | u8 n => simp [wtv] at hwt
      | u32 n => simp [wtv] at hwt
      | u64 n => simp [wtv] at hwt
      | arr es => simp [wtv] at hwt
      | slice es => simp [wtv] at hwt
      | strct vs => simp [wtv] at hwt
  | u32 =>
      cases v with
      | u32 n =>
          simp only [encodeValue, Except.ok.injEq] at henc
          simp only [fixedSizeOfTy, Option.some.injEq] at hfs
          subst henc
          simp [leBytes_length, ← hfs]
      | bool b => simp [wtv] at hwt
      | u8 n => simp [wtv] at hwt
      | u16 n => simp [wtv] at hwt
      | u64 n => simp [wtv] at hwt
      | arr es => simp [wtv] at hwt
      | slice es => simp [wtv] at hwt
      | strct vs => simp [wtv] at hwt
  | u64 =>
      cases v with
      | u64 n =>
          simp only [encodeValue, Except.ok.injEq] at henc
          simp only [fixedSizeOfTy, Option.some.injEq] at hfs
          subst henc
          simp [leBytes_length, ← hfs]
      | bool b => simp [wtv] at hwt
      | u8 n => simp [wtv] at hwt
      | u16 n => simp [wtv] at hwt
      | u32 n => simp [wtv] at hwt
      | arr es => simp [wtv] at hwt
      | slice es => simp [wtv] at hwt
      | strct vs => simp [wtv] at hwt
  | arr elem len =>
      cases v with
      | arr es =>
          simp only [encodeValue] at henc
          rw [show fixedSizeOfTy (.arr elem len) c =
            (match fixedSizeOfTy elem c.shift with
             | none => none
             | some s => some (s * len)) from by rw [fixedSizeOfTy]] at hfs
          cases hel : fixedSizeOfTy elem c.shift with
          | none => rw [hel] at hfs; simp at hfs
          | some selem =>
              rw [hel] at hfs
              simp only [Option.some.injEq] at hfs
              have hwt' : es.length = len ∧ wtvList elem es = true := by
                simpa [wtv] using hwt
              obtain ⟨hlen, hwl⟩ := hwt'
              cases elem with
              | u8 =>
                  simp only [encodeArray] at henc
                  have hbl2 := bytesOfVals_length es e henc
                  have hsel : selem = 1 := by
                    simpa [fixedSizeOfTy] using hel.symm
                  subst hsel
                  omega
              | bool =>
                  simp only [encodeArray] at henc
                  have := encodeSeq_length _ es c.shift selem e hwl hel henc
                  rw [this, hlen, ← hfs, Nat.mul_comm]
              | u16 =>
                  simp only [encodeArray] at henc
                  have := encodeSeq_length _ es c.shift selem e hwl hel henc
                  rw [this, hlen, ← hfs, Nat.mul_comm]
              | u32 =>
                  simp only [encodeArray] at henc
                  have := encodeSeq_length _ es c.shift selem e hwl hel henc
                  rw [this, hlen, ← hfs, Nat.mul_comm]
              | u64 =>
                  simp only [encodeArray] at henc
                  have := encodeSeq_length _ es c.shift selem e hwl hel henc
                  rw [this, hlen, ← hfs, Nat.mul_comm]
              | arr elem2 len2 =>
                  simp only [encodeArray] at henc
                  have := encodeSeq_length _ es c.shift selem e hwl hel henc
                  rw [this, hlen, ← hfs, Nat.mul_comm]
              | slice elem2 =>
                  simp only [encodeArray] at henc
                  have := encodeSeq_length _ es c.shift selem e hwl hel henc
                  rw [this, hlen, ← hfs, Nat.mul_comm]
              | strct fields2 =>
                  simp only [encodeArray] at henc
                  have := encodeSeq_length _ es c.shift selem e hwl hel henc
                  rw [this, hlen, ← hfs, Nat.mul_comm]
      | bool b => simp [wtv] at hwt
      | u8 n => simp [wtv] at hwt
      | u16 n => simp [wtv] at hwt
      | u32 n => simp [wtv] at hwt
      | u64 n => simp [wtv] at hwt
      | slice es => simp [wtv] at hwt
      | strct vs => simp [wtv] at hwt
  | slice elem =>
      cases v with
      | slice es =>
          simp only [encodeValue] at henc
          by_cases hbl : c.isBitlist
          · rw [show fixedSizeOfTy (.slice elem) c = none from by
              rw [fixedSizeOfTy]
              simp [hbl]] at hfs
            simp at hfs
          · cases hsz : c.size with
            | none =>
                rw [show fixedSizeOfTy (.slice elem) c = none from by
                  rw [fixedSizeOfTy]
                  simp [hbl, hsz]] at hfs
                simp at hfs
            | some size =>
                cases hel : fixedSizeOfTy elem c.shift with
                | none =>
                    rw [show fixedSizeOfTy (.slice elem) c = none from by
                      rw [fixedSizeOfTy]
                      simp [hbl, hsz, hel]] at hfs
                    simp at hfs
                | some selem =>
                    have hs : selem * size = s := by
                      have := hfs
                      rw [show fixedSizeOfTy (.slice elem) c = some (selem * size) from by
                        rw [fixedSizeOfTy]
                        simp [hbl, hsz, hel]] at this
                      simpa using this
                    rw [encodeSlice] at henc
                    rw [if_neg (by simp [hbl])] at henc
                    simp only [hsz] at henc
                    by_cases hlen : es.length = size
                    · rw [if_neg (by omega)] at henc
                      rw [encodeSliceBody, hel] at henc
                      have hwl : wtvList elem es = true := by simpa [wtv] using hwt
                      have := encodeSeq_length elem es c.shift selem e hwl hel henc
                      rw [this, hlen, ← hs, Nat.mul_comm]
                    · rw [if_pos (by omega)] at henc
                      simp at henc
      | bool b => simp [wtv] at hwt
      | u8 n => simp [wtv] at hwt
      | u16 n => simp [wtv] at hwt
      | u32 n => simp [wtv] at hwt
      | u64 n => simp [wtv] at hwt
      | arr es => simp [wtv] at hwt
      | strct vs => simp [wtv] at hwt
  | strct fields =>
      cases v with
      | strct vs =>
          simp only [encodeValue] at henc
          have hff : fixedSizeOfFields fields = some s := by
            rw [show fixedSizeOfTy (.strct fields) c = fixedSizeOfFields fields from by
              rw [fixedSizeOfTy]] at hfs
            exact hfs
          rw [encodeStruct] at henc
          simp only [bind, Except.bind] at henc
          cases hloop : encodeStructLoop fields vs (structFixedLen fields) with
          | error err => rw [hloop] at henc; simp at henc
          | ok r =>
              rw [hloop] at henc
              simp only [Except.ok.injEq] at henc
              obtain ⟨fx, ps, off2⟩ := r
              have hw : wtvFields fields vs = true := by simpa [wtv] using hwt
              have hl := encodeStructLoop_parts fields vs (structFixedLen fields)
                fx ps off2 hw hloop
              have hps : ps = [] := hl.2 (by simp [hff])
              have hsl := structFixedLen_of_fields fields s hff
              subst hps
              simp at henc
              rw [← henc]
              simp [hl.1, hsl]
      | bool b => simp [wtv] at hwt
      | u8 n => simp [wtv] at hwt
      | u16 n => simp [wtv] at hwt
      | u32 n => simp [wtv] at hwt
      | u64 n => simp [wtv] at hwt
      | arr es => simp [wtv] at hwt
      | slice es => simp [wtv] at hwt
termination_by sizeOf v

/-- A sequence of fixed-size elements encodes to `count * size` bytes. -/
theorem encodeSeq_length (t : Ty) (es : List Val) (c : TagCtx) (s : Nat) (e : List Nat)
    (hwt : wtvList t es = true) (hfs : fixedSizeOfTy t c = some s)
    (henc : encodeSeq t es c = .ok e) : e.length = es.length * s := by
  cases es with
  | nil =>
      simp only [encodeSeq, Except.ok.injEq] at henc
      simp [← henc]
  | cons v vs =>
      have hw : wtv t v = true ∧ wtvList t vs = true := by simpa [wtvList] using hwt
      simp only [encodeSeq, bind, Except.bind] at henc
      cases he : encodeValue t v c with
      | error err => rw [he] at henc; simp at henc
      | ok ev =>
          rw [he] at henc
          cases hrest : encodeSeq t vs c with
          | error err => rw [hrest] at henc; simp at henc
          | ok rest =>
              rw [hrest] at henc
              simp only [Except.ok.injEq] at henc
              have h1 := encodeValue_fixed_length t v c s ev hw.1 hfs he
              have h2 := encodeSeq_length t vs c s rest hw.2 hfs hrest
              rw [← henc]
              simp only [List.length_append, List.length_cons, h1, h2]
              ring
termination_by sizeOf es

/-- The struct loop produces a fixed section of length `structFixedLen`,
and no variable payloads when the struct is entirely fixed-size. -/
theorem encodeStructLoop_parts (fs : List (TagCtx × Ty)) (vs : List Val) (off : Nat)
    (fx : List Nat) (ps : List (List Nat)) (off2 : Nat)
    (hwt : wtvFields fs vs = true)
    (henc : encodeStructLoop fs vs off = .ok (fx, ps, off2)) :
    fx.length = structFixedLen fs ∧ ((fixedSizeOfFields fs).isSome → ps = []) := by
  cases fs with
  | nil =>
      cases vs with
      | nil =>
          simp only [encodeStructLoop, Except.ok.injEq, Prod.mk.injEq] at henc
          obtain ⟨h1, h2, _⟩ := henc
          subst h1
          subst h2
          simp [structFixedLen]
      | cons v vs' => simp [wtvFields] at hwt
  | cons ct fs' =>
      obtain ⟨c, t⟩ := ct
      cases vs with
      | nil => simp [wtvFields] at hwt
      | cons v vs' =>
          have hw : wtv t v = true ∧ wtvFields fs' vs' = true := by
            simpa [wtvFields] using hwt
          cases hft : fixedSizeOfTy t c with
          | some s1 =>
              rw [encodeStructLoop, hft] at henc
              simp only [bind, Except.bind] at henc
              cases he : encodeValue t v c with
              | error err => rw [he] at henc; simp at henc
              | ok ev =>
                  simp only [he] at henc
                  cases hr : encodeStructLoop fs' vs' off with
                  | error err => rw [hr] at henc; simp at henc
                  | ok r =>
                      obtain ⟨fx', ps', o2⟩ := r
                      simp only [hr] at henc
                      simp only [Except.ok.injEq, Prod.mk.injEq] at henc
                      obtain ⟨hfx, hps, _⟩ := henc
                      have ihl := encodeStructLoop_parts fs' vs' off fx' ps' o2 hw.2 hr
                      have hev := encodeValue_fixed_length t v c s1 ev hw.1 hft he
                      constructor
                      · rw [← hfx]
                        rw [structFixedLen_cons, hft]
                        simp [hev, ihl.1]
                      · intro hsome
                        rw [fixedSizeOfFields, hft] at hsome
                        have : (fixedSizeOfFields fs').isSome := by
                          cases hff : fixedSizeOfFields fs' with
                          | none => rw [hff] at hsome; simp at hsome
                          | some s2 => simp
                        rw [← hps]
                        exact ihl.2 this
          | none =>
              rw [encodeStructLoop, hft] at henc
              simp only [bind, Except.bind] at henc
              cases he : encodeValue t v c with
              | error err => rw [he] at henc; simp at henc
              | ok ev =>
                  simp only [he] at henc
                  cases hr : encodeStructLoop fs' vs' (off + ev.length) with
                  | error err => rw [hr] at henc; simp at henc
                  | ok r =>
                      obtain ⟨fx', ps', o2⟩ := r
                      simp only [hr] at henc
                      simp only [Except.ok.injEq, Prod.mk.injEq] at henc
                      obtain ⟨hfx, hps, _⟩ := henc
                      have ihl := encodeStructLoop_parts fs' vs' (off + ev.length)
                        fx' ps' o2 hw.2 hr
                      constructor
                      · rw [← hfx]
                        rw [structFixedLen_cons, hft]
                        simp [leBytes_length, ihl.1]
                      · intro hsome
                        rw [fixedSizeOfFields, hft] at hsome
                        simp at hsome
termination_by sizeOf vs

end

/-- Full specification of the `encodeStruct` field loop: the final offset
is the initial offset plus the total variable payload size, the payload
list is exactly the encodings of the variable fields in declaration order,
and the offset word for the `i`-th variable field sits at `wordPos fs i`
in the fixed section and holds `off + partSum ps i` (mod `2^32`). -/
theorem encodeStructLoop_spec (fs : List (TagCtx × Ty)) :
    ∀ (vs : List Val) (off : Nat) (fx : List Nat) (ps : List (List Nat)) (off2 : Nat),
      wtvFields fs vs = true →
      encodeStructLoop fs vs off = .ok (fx, ps, off2) →
      off2 = off + (ps.map List.length).sum ∧
      List.Forall₂ (fun ftv e => encodeValue ftv.1.2 ftv.2 ftv.1.1 = Except.ok e)
        (varFields fs vs) ps ∧
      ∀ i, i < ps.length →
        (fx.drop (wordPos fs i)).take 4 = leBytes 4 ((off + partSum ps i) % 2 ^ 32) := by
  induction fs with
  | nil =>
      intro vs off fx ps off2 hwt henc
      cases vs with
      | nil =>
          simp only [encodeStructLoop, Except.ok.injEq, Prod.mk.injEq] at henc
          obtain ⟨h1, h2, h3⟩ := henc
          subst h1
          subst h2
          subst h3
          refine ⟨by simp, by simp [varFields], ?_⟩
          intro i hi
          simp at hi
      | cons v vs' => simp [wtvFields] at hwt
  | cons ct fs' ih =>
      obtain ⟨c, t⟩ := ct
      intro vs off fx ps off2 hwt henc
      cases vs with
      | nil => simp [wtvFields] at hwt
      | cons v vs' =>
          have hw : wtv t v = true ∧ wtvFields fs' vs' = true := by
            simpa [wtvFields] using hwt
          cases hft : fixedSizeOfTy t c with
          | some s1 =>
              rw [encodeStructLoop, hft] at henc
              simp only [bind, Except.bind] at henc
              cases he : encodeValue t v c with
              | error err => rw [he] at henc; simp at henc
              | ok ev =>
                  simp only [he] at henc
                  cases hr : encodeStructLoop fs' vs' off with
                  | error err => rw [hr] at henc; simp at henc
                  | ok r =>
                      obtain ⟨fx', ps', o2⟩ := r
                      simp only [hr, Except.ok.injEq, Prod.mk.injEq] at henc
                      obtain ⟨hfx, hps, ho⟩ := henc
                      obtain ⟨ih1, ih2, ih3⟩ := ih vs' off fx' ps' o2 hw.2 hr
                      have hev := encodeValue_fixed_length t v c s1 ev hw.1 hft he
                      subst hps
                      subst ho
                      subst hfx
                      refine ⟨ih1, ?_, ?_⟩
                      · rw [show varFields ((c, t) :: fs') (v :: vs') = varFields fs' vs' from by
                          simp [varFields, hft]]
                        exact ih2
                      · intro i hi
                        rw [show wordPos ((c, t) :: fs') i = s1 + wordPos fs' i from by
                          simp [wordPos, hft]]
                        rw [← List.drop_drop]
                        rw [show List.drop s1 (ev ++ fx') = fx' from by
                          rw [← hev]
                          exact List.drop_left' rfl]
                        exact ih3 i hi
          | none =>
              rw [encodeStructLoop, hft] at henc
              simp only [bind, Except.bind] at henc
              cases he : encodeValue t v c with
              | error err => rw [he] at henc; simp at henc
              | ok ev =>
                  simp only [he] at henc
                  cases hr : encodeStructLoop fs' vs' (off + ev.length) with
                  | error err => rw [hr] at henc; simp at henc
                  | ok r =>
                      obtain ⟨fx', ps', o2⟩ := r
                      simp only [hr, Except.ok.injEq, Prod.mk.injEq] at henc
                      obtain ⟨hfx, hps, ho⟩ := henc
                      obtain ⟨ih1, ih2, ih3⟩ := ih vs' (off + ev.length) fx' ps' o2 hw.2 hr
                      subst hps
                      subst ho
                      subst hfx
                      refine ⟨?_, ?_, ?_⟩
                      · simp only [List.map_cons, List.sum_cons]
                        omega
                      · rw [show varFields ((c, t) :: fs') (v :: vs') =
                            ((c, t), v) :: varFields fs' vs' from by
                          simp [varFields, hft]]
                        exact List.Forall₂.cons he ih2
                      · intro i hi
                        cases i with
                        | zero =>
                            rw [show wordPos ((c, t) :: fs') 0 = 0 from by
                              simp [wordPos, hft]]
                            simp only [List.drop_zero, partSum_zero, Nat.add_zero]
                            exact List.take_left' (leBytes_length 4 _)
                        | succ i =>
                            rw [show wordPos ((c, t) :: fs') (i + 1) = 4 + wordPos fs' i from by
                              simp [wordPos, hft]]
                            rw [← List.drop_drop]
                            rw [show List.drop 4 (leBytes 4 (off % 2 ^ 32) ++ fx') = fx' from
                              List.drop_left' (leBytes_length 4 _)]
                            have := ih3 i (by simpa using hi)
                            rw [this, partSum_cons]
                            congr 2
                            omega

/-- The (fixed section, variable payloads) pair the `encodeStruct` loop
produces (defaulting to `([], [])` when encoding fails). -/
def structParts (fields : List (TagCtx × Ty)) (vs : List Val) : List Nat × List (List Nat) :=
  match encodeStructLoop fields vs (structFixedLen fields) with
  | .ok r => (r.1, r.2.1)
  | .error _ => ([], [])

/-- C2: layout of the reference container encoder.  For every well-typed
struct value the encoder accepts (`encodeStruct` succeeds, with the output
short enough for 4-byte offset words), the output is the fixed section
followed by the variable fields' payloads in declaration order; the fixed
section has length `structFixedLen`; the `i`-th offset word (at
`wordPos fields i`) decodes to the byte distance from the start of the
output to the start of the `i`-th variable payload; that payload indeed
starts there; and the first offset word equals the fixed-section size. -/
theorem encodeStruct_layout (fields : List (TagCtx × Ty)) (vs : List Val) (out : List Nat)
    (hwt : wtvFields fields vs = true)
    (henc : encodeStruct fields vs = .ok out)
    (hsz : out.length < 2 ^ 32) :
    out = (structParts fields vs).1 ++ (structParts fields vs).2.flatten ∧
    (structParts fields vs).1.length = structFixedLen fields ∧
    List.Forall₂ (fun ftv e => encodeValue ftv.1.2 ftv.2 ftv.1.1 = Except.ok e)
      (varFields fields vs) (structParts fields vs).2 ∧
    (∀ i, i < (structParts fields vs).2.length →
      leDecode ((out.drop (wordPos fields i)).take 4) =
        structFixedLen fields + partSum (structParts fields vs).2 i) ∧
    (∀ i (h : i < (structParts fields vs).2.length),
      (out.drop (structFixedLen fields + partSum (structParts fields vs).2 i)).take
          ((structParts fields vs).2.get ⟨i, h⟩).length =
        (structParts fields vs).2.get ⟨i, h⟩) ∧
    (0 < (structParts fields vs).2.length →
      leDecode ((out.drop (wordPos fields 0)).take 4) = structFixedLen fields) := by
  rw [encodeStruct] at henc
  simp only [bind, Except.bind] at henc
  cases hloop : encodeStructLoop fields vs (structFixedLen fields) with
  | error err => rw [hloop] at henc; simp at henc
  | ok r =>
      obtain ⟨fx, ps, off2⟩ := r
      simp only [hloop, Except.ok.injEq] at henc
      have hparts : structParts fields vs = (fx, ps) := by
        simp [structParts, hloop]
      obtain ⟨hoff, hfa, hwords⟩ :=
        encodeStructLoop_spec fields vs (structFixedLen fields) fx ps off2 hwt hloop
      have hfxlen : fx.length = structFixedLen fields :=
        (encodeStructLoop_parts fields vs _ fx ps off2 hwt hloop).1
      have hout : out = fx ++ ps.flatten := henc.symm
      have houtlen : out.length = structFixedLen fields + (ps.map List.length).sum := by
        rw [hout]
        simp [hfxlen, List.length_flatten]
      have hword : ∀ i, i < ps.length →
          leDecode ((out.drop (wordPos fields i)).take 4) =
            structFixedLen fields + partSum ps i := by
        intro i hi
        have hw := hwords i hi
        have hlen4 : 4 ≤ (fx.drop (wordPos fields i)).length := by
          have h1 : ((fx.drop (wordPos fields i)).take 4).length =
              (leBytes 4 ((structFixedLen fields + partSum ps i) % 2 ^ 32)).length := by
            rw [hw]
          rw [leBytes_length, List.length_take] at h1
          omega
        have hwle : wordPos fields i ≤ fx.length := by
          rw [List.length_drop] at hlen4
          omega
        have hdropout : out.drop (wordPos fields i) =
            fx.drop (wordPos fields i) ++ ps.flatten := by
          rw [hout, List.drop_append_eq_append_drop]
          have : wordPos fields i - fx.length = 0 := by omega
          rw [this, List.drop_zero]
        have htakeout : (out.drop (wordPos fields i)).take 4 =
            (fx.drop (wordPos fields i)).take 4 := by
          rw [hdropout, List.take_append_eq_append_take]
          have h0 : 4 - (fx.drop (wordPos fields i)).length = 0 := by omega
          rw [h0, List.take_zero, List.append_nil]
        rw [htakeout, hw, leDecode_leBytes]
        have hlt : structFixedLen fields + partSum ps i < 2 ^ 32 := by
          have := partSum_le_total ps i
          omega
        have h32 : (2 : Nat) ^ (8 * 4) = 2 ^ 32 := by norm_num
        rw [h32, Nat.mod_mod_of_dvd _ dvd_rfl, Nat.mod_eq_of_lt hlt]
      rw [hparts]
      refine ⟨hout, hfxlen, hfa, hword, ?_, ?_⟩
      · intro i hi
        have hdrop2 : out.drop (structFixedLen fields + partSum ps i) =
            ps.flatten.drop (partSum ps i) := by
          rw [hout, ← hfxlen, ← List.drop_drop, List.drop_left' rfl]
        rw [hdrop2]
        exact flatten_segment ps i hi
      · intro hpos
        have := hword 0 hpos
        rw [this, partSum_zero, Nat.add_zero]

/-- The concrete struct used in the C2 witness: one fixed `uint16` field
followed by one untagged `[]byte` (variable) field. -/
def witnessFields : List (TagCtx × Ty) :=
  [(⟨[], [], false⟩, Ty.u16), (⟨[], [], false⟩, Ty.slice Ty.u8)]

/-- The concrete value for the C2 witness: `{ A: 0x0201, B: [7] }`. -/
def witnessVals : List Val :=
  [Val.u16 0x0201, Val.slice [Val.u8 7]]

theorem witness_encodeStruct_eval :
    encodeStruct witnessFields witnessVals = .ok [1, 2, 6, 0, 0, 0, 7] := by
  simp [witnessFields, witnessVals, encodeStruct, encodeStructLoop, encodeValue,
    encodeSlice, encodeSliceBody, encodeSeq, fixedSizeOfTy, TagCtx.size, TagCtx.max,
    TagCtx.shift, structFixedLen, leBytes, bind, Except.bind]

/-- Witness for C2 at the concrete struct `{ A: uint16, B: []byte }`. -/
theorem encodeStruct_layout_witness :
    wtvFields witnessFields witnessVals = true ∧
    encodeStruct witnessFields witnessVals = .ok [1, 2, 6, 0, 0, 0, 7] ∧
    ([1, 2, 6, 0, 0, 0, 7] : List Nat).length < 2 ^ 32 ∧
    ([1, 2, 6, 0, 0, 0, 7] : List Nat) =
        (structParts witnessFields witnessVals).1 ++
          (structParts witnessFields witnessVals).2.flatten ∧
    (structParts witnessFields witnessVals).1.length = structFixedLen witnessFields ∧
    List.Forall₂ (fun ftv e => encodeValue ftv.1.2 ftv.2 ftv.1.1 = Except.ok e)
      (varFields witnessFields witnessVals) (structParts witnessFields witnessVals).2 ∧
    (∀ i, i < (structParts witnessFields witnessVals).2.length →
      leDecode ((([1, 2, 6, 0, 0, 0, 7] : List Nat).drop (wordPos witnessFields i)).take 4) =
        structFixedLen witnessFields + partSum (structParts witnessFields witnessVals).2 i) ∧
    (∀ i (h : i < (structParts witnessFields witnessVals).2.length),
      ((([1, 2, 6, 0, 0, 0, 7] : List Nat)).drop
          (structFixedLen witnessFields +
            partSum (structParts witnessFields witnessVals).2 i)).take
          ((structParts witnessFields witnessVals).2.get ⟨i, h⟩).length =
        (structParts witnessFields witnessVals).2.get ⟨i, h⟩) ∧
    (0 < (structParts witnessFields witnessVals).2.length →
      leDecode ((([1, 2, 6, 0, 0, 0, 7] : List Nat).drop (wordPos witnessFields 0)).take 4) =
        structFixedLen witnessFields) := by
  have h1 : wtvFields witnessFields witnessVals = true := by
    simp [witnessFields, witnessVals, wtvFields, wtv, wtvList]
  have h2 := witness_encodeStruct_eval
  have h3 : ([1, 2, 6, 0, 0, 0, 7] : List Nat).length < 2 ^ 32 := by norm_num
  obtain ⟨c1, c2, c3, c4, c5, c6⟩ :=
    encodeStruct_layout witnessFields witnessVals [1, 2, 6, 0, 0, 0, 7] h1 h2 h3
  exact ⟨h1, h2, h3, c1, c2, c3, c4, c5, c6⟩

end AlmaSSZ
